import Mathlib

/-!
# Grafos: ε-NFA to regular expression (Arden's lemma)

A shallow embedding of `script.js` and a verification development over it.

Modelling conventions.

* A JavaScript string is a list of characters (`Str`).
* A JavaScript `Set` is a duplicate-free list in insertion order (`setAdd`).
* A JavaScript object used as a dictionary (`adj`, `closures`, `eqs`, `terms`) is an association
  list over its own properties (`dictGet`, `dictSet`, `dictDelete`).  These dictionaries are
  plain objects, so a read `obj[k]` that finds no own property goes on to `Object.prototype`:
  for the names of `inheritedKeys` it yields a built-in function, or for `__proto__` the
  prototype object itself, and `undefined` only for the other names.  Every read of the script
  is modelled with that case distinction at the place where it occurs.
* A write `obj['__proto__'] = v` creates no property: with an object `v` it makes `v` the
  prototype of `obj`, so that `obj['__proto__']` reads `v` back, and with a string `v` it does
  nothing.  The dictionaries keyed by state (`adj`, `closures`, `eqs`) hold objects and are
  read at states only, so for them the key `__proto__` is kept like an own key; the one
  consequence that shows is modelled in `computeClosures`.  In `terms`, which holds strings,
  the key `__proto__` is never own.
* The graph held by the drawing library is the list of its nodes and the list of its edges, in
  the library's iteration order, together with the text of the alphabet field.  The library
  holds no node with an empty or repeated identifier and no edge from or to a missing node
  (`WellFormed`); the model follows the script on such graphs.
* A thrown exception is an `Except.error`.  A `TypeError` (a property read on `undefined`, a
  call of something that is not a function, a spread of something that is not iterable) is
  `Err.typeError`.  Where the script would go on computing with a built-in value, whose text is
  left to the JavaScript engine, the model stops with `Err.nativeValue`.
* The derivation log is a list of strings that is only appended to and never read back by the
  computation; it is not part of the model.
-/

namespace Grafos

/-! ## Strings -/

/-- A JavaScript string. -/
abbrev Str := List Char

/-- The constant `EPSILON` of the script. -/
def EPSILON : Str := ['ε']

/-- The constant `EMPTY` of the script. -/
def EMPTY : Str := ['∅']

/-- White space and line terminators, as removed by `String.prototype.trim`. -/
def isTrimChar (c : Char) : Bool :=
  let n := c.toNat
  n = 0x09 || n = 0x0A || n = 0x0B || n = 0x0C || n = 0x0D || n = 0x20 || n = 0xA0 ||
  n = 0x1680 || (0x2000 ≤ n && n ≤ 0x200A) || n = 0x2028 || n = 0x2029 || n = 0x202F ||
  n = 0x205F || n = 0x3000 || n = 0xFEFF

/-- The method `String.prototype.trim`. -/
def trim (s : Str) : Str :=
  ((s.dropWhile isTrimChar).reverse.dropWhile isTrimChar).reverse

/-- The method `String.prototype.split` with a one-character separator. -/
def split (sep : Char) : Str → List Str
  | [] => [[]]
  | c :: cs =>
    if c = sep then [] :: split sep cs
    else
      match split sep cs with
      | [] => [[c]]
      | p :: ps => (c :: p) :: ps

/-- The method `Array.prototype.join`. -/
def join (sep : Str) : List Str → Str
  | [] => []
  | [p] => p
  | p :: q :: ps => p ++ sep ++ join sep (q :: ps)

/-! ## Sets and dictionaries -/

/-- The method `Set.prototype.add`: insertion order is kept, a present element is not moved. -/
def setAdd {α : Type} [DecidableEq α] (s : List α) (x : α) : List α :=
  if x ∈ s then s else s ++ [x]

/-- The constructor `new Set(iterable)`, also `[...new Set(xs)]`. -/
def uniq {α : Type} [DecidableEq α] (xs : List α) : List α :=
  xs.foldl setAdd []

/-- The own property `k` of a dictionary, if there is one. -/
def dictGet {β : Type} (k : Str) : List (Str × β) → Option β
  | [] => none
  | (k', v) :: rest => if k' = k then some v else dictGet k rest

/-- Property write `obj[k] = v`: an existing key keeps its place, a new key goes last. -/
def dictSet {β : Type} (k : Str) (v : β) : List (Str × β) → List (Str × β)
  | [] => [(k, v)]
  | (k', v') :: rest => if k' = k then (k', v) :: rest else (k', v') :: dictSet k v rest

/-- Property removal `delete obj[k]`. -/
def dictDelete {β : Type} (k : Str) (d : List (Str × β)) : List (Str × β) :=
  d.filter (fun kv => kv.1 ≠ k)

/-- The names every plain object inherits from `Object.prototype`: eleven built-in functions
and the accessor `__proto__`. -/
def inheritedKeys : List Str :=
  ["constructor", "__defineGetter__", "__defineSetter__", "hasOwnProperty",
    "__lookupGetter__", "__lookupSetter__", "isPrototypeOf", "propertyIsEnumerable",
    "toString", "valueOf", "toLocaleString", "__proto__"].map String.toList

/-- The property name `__proto__`. -/
def protoKey : Str := "__proto__".toList

/-! ## Exceptions and loops -/

/-- The exceptions `runArden` can raise. -/
inductive Err where
  /-- Raised by `'Debes crear al menos un estado.'` -/
  | noStates
  /-- Raised by `'Debes marcar exactamente un estado inicial (doble click).'` -/
  | noInitial
  /-- Raised by `'Debes marcar al menos un estado final (click).'` -/
  | noFinals
  /-- A `TypeError`: a property read on `undefined`, a call of a value that is not a function,
  or a spread of a value that is not iterable. -/
  | typeError
  /-- The script goes on with a value inherited from `Object.prototype` where a string, a set
  or a dictionary is meant; the model does not follow it further. -/
  | nativeValue
  /-- The closure loop did not finish within its bound of iterations. -/
  | diverges
  deriving DecidableEq, Repr

deriving instance DecidableEq for Except

/-- The loop `xs.forEach(x => body)` over a mutable state, where the body may throw. -/
def forEachE {σ α : Type} (f : σ → α → Except Err σ) : List α → σ → Except Err σ
  | [], s => .ok s
  | x :: xs, s =>
    match f s x with
    | .error e => .error e
    | .ok s' => forEachE f xs s'

/-! ## Expression algebra -/

/-- The function `unionExpr(...parts)`. -/
def unionExpr (parts : List Str) : Str :=
  let flat := ((parts.map (fun p => (split '|' p).map trim)).flatten).filter (fun x => x ≠ [])
  let filtered := flat.filter (fun x => x ≠ EMPTY)
  let uniqParts := uniq filtered
  match uniqParts with
  | [] => EMPTY
  | [x] => x
  | _ => join ['|'] uniqParts

/-- The function `needsParen(expr)`. -/
def needsParen (expr : Str) : Bool :=
  decide ('|' ∈ expr) && !(expr.head? = some '(' && expr.getLast? = some ')')

/-- The function `concatExpr(a, b)`. -/
def concatExpr (a b : Str) : Str :=
  if a = EMPTY ∨ b = EMPTY then EMPTY
  else if a = EPSILON then b
  else if b = EPSILON then a
  else
    let aa := if needsParen a then ['('] ++ a ++ [')'] else a
    let bb := if needsParen b then ['('] ++ b ++ [')'] else b
    aa ++ bb

/-- The function `starExpr(a)`. -/
def starExpr (a : Str) : Str :=
  if a = EMPTY ∨ a = EPSILON then EPSILON
  else if a.getLast? = some '*' then a
  else if needsParen a then ['('] ++ a ++ [')', '*'] else a ++ ['*']

/-! ## Automaton model -/

/-- A node of the graph: `data.id`, `data.initial === 'true'`, `data.final === 'true'`. -/
structure Node where
  id : Str
  initial : Bool
  final : Bool
  deriving DecidableEq, Repr

/-- An edge of the graph: `source().id()`, `target().id()`, `data('label')`. -/
structure Edge where
  source : Str
  target : Str
  label : Str
  deriving DecidableEq, Repr

/-- What `runArden` reads: the graph `cy` and `ui.alphabetInput.value`. -/
structure Automaton where
  nodes : List Node
  edges : List Edge
  alphabetInput : Str
  deriving DecidableEq, Repr

/-- A unit transition `{ from, to, symbol }`, with fields `frm`, `dest`, `symbol`. -/
structure Transition where
  frm : Str
  dest : Str
  symbol : Str
  deriving DecidableEq, Repr

/-- The function `normalizeLabelList(raw)`. -/
def normalizeLabelList (raw : Str) : List Str :=
  uniq ((((split ',' raw).map trim).filter (fun s => s ≠ [])).map
    (fun s => if s = ['e'] then EPSILON else s))

/-- The expression `cy.nodes().map(n => n.id())`. -/
def stateIds (a : Automaton) : List Str :=
  a.nodes.map (fun n => n.id)

/-- The function `getInitialState()`: the first node marked initial, or `null`. -/
def getInitialState (a : Automaton) : Option Str :=
  ((a.nodes.filter (fun n => n.initial)).head?).map (fun n => n.id)

/-- The function `getFinalStates()`. -/
def getFinalStates (a : Automaton) : List Str :=
  uniq ((a.nodes.filter (fun n => n.final)).map (fun n => n.id))

/-- The function `parseAlphabet()`. -/
def parseAlphabet (a : Automaton) : List Str :=
  uniq (((split ',' a.alphabetInput).map trim).filter (fun s => s ≠ []))

/-- The function `buildUnitTransitions()`. -/
def buildUnitTransitions (a : Automaton) : List Transition :=
  (a.edges.map (fun e =>
    (normalizeLabelList e.label).map (fun sym => Transition.mk e.source e.target sym))).flatten

/-! ## Adjacency and ε-closure -/

/-- The adjacency structure: `adj[state][symbol]` is a set of states. -/
abbrev Adj := List (Str × List (Str × List Str))

/-- The body of the second loop of `adjacencyFromUnitTransitions`:
`if (!adj[from][symbol]) adj[from][symbol] = new Set(); adj[from][symbol].add(to)`.
When the row has no own set for the symbol and the symbol is an inherited name, the read
`adj[from][symbol]` is a built-in value, which is truthy, so no set is created, and the call of
its missing method `add` is a `TypeError`. -/
def addUnit (adj : Adj) (t : Transition) : Except Err Adj :=
  match dictGet t.frm adj with
  | none => if t.frm ∈ inheritedKeys then .error .nativeValue else .error .typeError
  | some row =>
    match dictGet t.symbol row with
    | some set => .ok (dictSet t.frm (dictSet t.symbol (setAdd set t.dest) row) adj)
    | none =>
      if t.symbol ∈ inheritedKeys then .error .typeError
      else
        .ok (dictSet t.frm
          (dictSet t.symbol (setAdd [] t.dest) (dictSet t.symbol [] row)) adj)

/-- The function `adjacencyFromUnitTransitions(states, unitTransitions)`. -/
def adjacencyFromUnitTransitions (states : List Str) (unitTransitions : List Transition) :
    Except Err Adj :=
  forEachE addUnit unitTransitions (states.foldl (fun adj q => dictSet q [] adj) [])

/-- The set held as own property `adj[p][sym]`, empty when there is none.  For `sym = EPSILON`
this is the value of `adj[cur]?.[EPSILON] ?? new Set()` in the closure loop: no built-in object
has a property named `ε`, so that read finds an own set or `undefined`. -/
def targets (adj : Adj) (p sym : Str) : List Str :=
  ((dictGet p adj).bind (dictGet sym)).getD []

/-- The expression `adj[p]?.[sym] ?? new Set()` of the transition loop, for a symbol of the
alphabet: the own set; without one, a built-in value when `sym` is an inherited name, on which
the call of `forEach` is a `TypeError`; the empty set otherwise. -/
def symbolTargets (adj : Adj) (p sym : Str) : Except Err (List Str) :=
  match dictGet p adj with
  | none => if p ∈ inheritedKeys then .error .nativeValue else .ok []
  | some row =>
    match dictGet sym row with
    | some set => .ok set
    | none => if sym ∈ inheritedKeys then .error .typeError else .ok []

/-- The body `next.forEach(v => ...)` of the closure loop, on the pair `(seen, stack)`;
the top of the stack is the head of the list. -/
def visit (st : List Str × List Str) (v : Str) : List Str × List Str :=
  if v ∈ st.1 then st else (st.1 ++ [v], v :: st.2)

/-- The `while (stack.length)` loop of `epsilonClosure`, bounded by a number of iterations;
`none` when the bound is reached with a non-empty stack. -/
def closureLoop (adj : Adj) : Nat → List Str → List Str → Option (List Str)
  | _, [], seen => some seen
  | 0, _ :: _, _ => none
  | fuel + 1, cur :: stack, seen =>
    let st := (targets adj cur EPSILON).foldl visit (seen, stack)
    closureLoop adj fuel st.2 st.1

/-- The entries of all the sets of an adjacency structure. -/
def adjEntries (adj : Adj) : List Str :=
  (adj.map (fun row => (row.2.map (fun cell => cell.2)).flatten)).flatten

/-- The function `epsilonClosure(state, adj)`: the loop is run for at most one iteration per
state it can push, the start state and every entry of `adj`. -/
def epsilonClosure (state : Str) (adj : Adj) : Option (List Str) :=
  closureLoop adj ((adjEntries adj).length + 1) [state] [state]

/-! ## Preprocessing: from the ε-NFA to an NFA without ε -/

/-- The dictionary `closures`. -/
abbrev Closures := List (Str × List Str)

/-- The loop `states.forEach(q => { closures[q] = epsilonClosure(q, adj); ... })`.
Once `closures['__proto__']` has been written, the prototype of `closures` is a set, whose
property `size` has a getter and no setter: a later `closures['size'] = ...` stores nothing and
the read of `closures['size']` in the same iteration is a `TypeError`. -/
def computeClosures (states : List Str) (adj : Adj) : Except Err Closures :=
  forEachE (fun cl q =>
    match epsilonClosure q adj with
    | none => .error .diverges
    | some c =>
      if q = "size".toList ∧ (dictGet protoKey cl).isSome ∧ (dictGet q cl).isNone then
        .error .typeError
      else .ok (dictSet q c cl)) states []

/-- The loop filling `newFinals`: `q` is added when `[...closures[q]].some(x => finals.has(x))`.
A `closures[q]` that is no own property is `undefined` or a built-in value, and its spread is
a `TypeError` in both cases. -/
def reclassifyFinals (states finals : List Str) (closures : Closures) : Except Err (List Str) :=
  forEachE (fun nf q =>
    match dictGet q closures with
    | none => .error .typeError
    | some c => .ok (if c.any (fun x => decide (x ∈ finals)) then setAdd nf q else nf)) states []

/-- The body `(adj[p]?.[sym] ?? new Set()).forEach(t => closures[t].forEach(c => reached.add(c)))`.
A `closures[t]` that is no own property is `undefined` or a built-in value, and the call of its
`forEach` is a `TypeError` in both cases. -/
def reachedFrom (adj : Adj) (closures : Closures) (sym : Str) (reached : List Str) (p : Str) :
    Except Err (List Str) :=
  match symbolTargets adj p sym with
  | .error e => .error e
  | .ok ts =>
    forEachE (fun r t =>
      match dictGet t closures with
      | none => .error .typeError
      | some ct => .ok (ct.foldl setAdd r)) ts reached

/-- The set `reached` computed for a state `q` and a symbol `sym`. -/
def reachedSet (adj : Adj) (closures : Closures) (q sym : Str) : Except Err (List Str) :=
  match dictGet q closures with
  | none => .error .typeError
  | some cq => forEachE (reachedFrom adj closures sym) cq []

/-- The body of `alphabet.forEach(sym => ...)` for a state `q`. -/
def noEpsSymbol (adj : Adj) (closures : Closures) (q : Str) (acc : List Transition) (sym : Str) :
    Except Err (List Transition) :=
  match reachedSet adj closures q sym with
  | .error e => .error e
  | .ok reached => .ok (acc ++ reached.map (fun r => Transition.mk q r sym))

/-- The loop filling `noEpsTransitions`. -/
def noEpsTransitions (states alphabet : List Str) (adj : Adj) (closures : Closures) :
    Except Err (List Transition) :=
  forEachE (fun acc q => forEachE (noEpsSymbol adj closures q) alphabet acc) states []

/-- The values `runArden` holds when part 1 of its log is complete. -/
structure Preprocessed where
  states : List Str
  alphabet : List Str
  adj : Adj
  closures : Closures
  newFinals : List Str
  noEps : List Transition
  deriving DecidableEq, Repr

/-- Part 1 of `runArden`, after validation: adjacency, closures, new finals, new transitions. -/
def preprocess (a : Automaton) : Except Err Preprocessed :=
  match adjacencyFromUnitTransitions (stateIds a) (buildUnitTransitions a) with
  | .error e => .error e
  | .ok adj =>
    match computeClosures (stateIds a) adj with
    | .error e => .error e
    | .ok closures =>
      match reclassifyFinals (stateIds a) (getFinalStates a) closures with
      | .error e => .error e
      | .ok newFinals =>
        match noEpsTransitions (stateIds a) (parseAlphabet a) adj closures with
        | .error e => .error e
        | .ok noEps => .ok ⟨stateIds a, parseAlphabet a, adj, closures, newFinals, noEps⟩

/-! ## Equations and elimination -/

/-- An equation `{ const, terms }`: `X = const ∪ ⋃ terms[v]·v`. -/
structure Equation where
  const : Str
  terms : List (Str × Str)
  deriving DecidableEq, Repr

/-- The dictionary `eqs`. -/
abbrev Eqs := List (Str × Equation)

/-- The loop `states.forEach(q => { eqs[q] = { const: ..., terms: {} }; })`. -/
def initEquations (states newFinals : List Str) : Eqs :=
  states.foldl (fun eqs q =>
    dictSet q (Equation.mk (if q ∈ newFinals then EPSILON else EMPTY) []) eqs) []

/-- The statement `terms[k] = terms[k] ? unionExpr(terms[k], extra) : extra`.  An own
coefficient counts when it is not the empty string.  Without an own coefficient: for
`k = '__proto__'` the read is the prototype object, which is truthy, the union is computed with
its text `[object Object]` and the write of the resulting string does nothing; for another
inherited name the read is a built-in function and the script goes on with the text of that
function; for any other name the read is `undefined` and `extra` is stored. -/
def mergeTerm (k extra : Str) (terms : List (Str × Str)) : Except Err (List (Str × Str)) :=
  match dictGet k terms with
  | some (c :: cs) => .ok (dictSet k (unionExpr [c :: cs, extra]) terms)
  | some [] => .ok (dictSet k extra terms)
  | none =>
    if k = protoKey then .ok terms
    else if k ∈ inheritedKeys then .error .nativeValue
    else .ok (dictSet k extra terms)

/-- The body of `noEpsTransitions.forEach(({ from, to, symbol }) => ...)`.  An `eqs[from]` that
is no own property is `undefined` or a built-in value without a property `terms`, and the
read of `terms[to]` is a `TypeError` in both cases. -/
def addTerm (eqs : Eqs) (t : Transition) : Except Err Eqs :=
  match dictGet t.frm eqs with
  | none => .error .typeError
  | some eq =>
    match mergeTerm t.dest t.symbol eq.terms with
    | .error e => .error e
    | .ok terms => .ok (dictSet t.frm (Equation.mk eq.const terms) eqs)

/-- Part 2 of `runArden`: the system of equations. -/
def buildEquations (states newFinals : List Str) (noEps : List Transition) : Except Err Eqs :=
  forEachE addTerm noEps (initEquations states newFinals)

/-- The self-loop step of the elimination of `xk` (Arden's lemma); every key of `terms` other
than `xk` gets its coefficient multiplied by the factor, then the key `xk` is deleted.
When `terms` has no own coefficient for `xk` and `xk` is an inherited name,
`eqK.terms[xk] ?? EMPTY` is a built-in value, which differs from `EMPTY`, and `starExpr` calls
its missing method `endsWith`: a `TypeError`. -/
def ardenStep (xk : Str) (eqs : Eqs) : Except Err Eqs :=
  match dictGet xk eqs with
  | none => .error .typeError
  | some eqK =>
    if (dictGet xk eqK.terms).isNone ∧ xk ∈ inheritedKeys then .error .typeError
    else
      let selfCoeff := (dictGet xk eqK.terms).getD EMPTY
      if selfCoeff ≠ EMPTY then
        let factor := starExpr selfCoeff
        .ok (dictSet xk
          (Equation.mk (concatExpr factor eqK.const)
            (dictDelete xk (eqK.terms.map (fun vc =>
              if vc.1 ≠ xk then (vc.1, concatExpr factor vc.2) else vc))))
          eqs)
      else .ok eqs

/-- The body of the inner loop `for (let i = 0; i < k; i++)`: substitution of `xk` in the
equation of `xi`; `eqK` is read through `eqs`, as the script reads it through a reference.
The coefficient `eqs[xi].terms[xk]` counts when it is an own string that is not empty; without
an own coefficient it is `undefined`, and the loop continues, unless `xk` is an inherited name,
for which it is a built-in value and the script goes on with that value. -/
def substitute (xk : Str) (eqs : Eqs) (xi : Str) : Except Err Eqs :=
  match dictGet xi eqs with
  | none => .error .typeError
  | some eqI =>
    match dictGet xk eqI.terms with
    | some (c :: cs) =>
      match dictGet xk eqs with
      | none => .error .typeError
      | some eqK =>
        match forEachE (fun terms vc => mergeTerm vc.1 (concatExpr (c :: cs) vc.2) terms)
            eqK.terms eqI.terms with
        | .error e => .error e
        | .ok terms =>
          .ok (dictSet xi
            (Equation.mk (unionExpr [eqI.const, concatExpr (c :: cs) eqK.const])
              (dictDelete xk terms))
            eqs)
    | some [] => .ok eqs
    | none => if xk ∈ inheritedKeys then .error .nativeValue else .ok eqs

/-- The loop `for (let k = states.length - 1; k >= 0; k--)`, on the states still to eliminate
listed last first: the head is `xk`, the tail reversed is `states[0], ..., states[k-1]`. -/
def elimLoop : List Str → Eqs → Except Err Eqs
  | [], eqs => .ok eqs
  | xk :: before, eqs =>
    match ardenStep xk eqs with
    | .error e => .error e
    | .ok eqs1 =>
      match forEachE (substitute xk) before.reverse eqs1 with
      | .error e => .error e
      | .ok eqs2 => elimLoop before eqs2

/-- The function `runArden()`, returning `finalRegex`.  An `eqs[initial]` that is no own
property is `undefined`, whose property `const` cannot be read, or a built-in value, whose
property `const` is `undefined`. -/
def runArden (a : Automaton) : Except Err Str :=
  if (stateIds a).length = 0 then .error .noStates
  else
    match getInitialState a with
    | none => .error .noInitial
    | some [] => .error .noInitial
    | some (c :: cs) =>
      if (getFinalStates a).length = 0 then .error .noFinals
      else
        match preprocess a with
        | .error e => .error e
        | .ok pre =>
          match buildEquations pre.states pre.newFinals pre.noEps with
          | .error e => .error e
          | .ok eqs =>
            match elimLoop pre.states.reverse eqs with
            | .error e => .error e
            | .ok solved =>
              match dictGet (c :: cs) solved with
              | none => if (c :: cs) ∈ inheritedKeys then .error .nativeValue else .error .typeError
              | some eq => .ok eq.const

/-- The dictionary `eqs` as it stands when the elimination loop of `runArden` has finished. -/
def solvedEquations (a : Automaton) : Except Err Eqs :=
  match preprocess a with
  | .error e => .error e
  | .ok pre =>
    match buildEquations pre.states pre.newFinals pre.noEps with
    | .error e => .error e
    | .ok eqs => elimLoop pre.states.reverse eqs

/-! ## Example automata -/

/-- The demonstration automaton loaded when the page starts (Scenario 1). -/
def demo : Automaton :=
  { nodes := [⟨"q0".toList, true, false⟩, ⟨"q1".toList, false, true⟩]
    edges := [⟨"q0".toList, "q1".toList, "a,ε".toList⟩, ⟨"q1".toList, "q1".toList, "b".toList⟩]
    alphabetInput := "a,b".toList }

/-- The automaton `q0 -a-> q1 -b-> q0` with `q0` initial and final: it accepts `(ab)*`. -/
def loopAB : Automaton :=
  { nodes := [⟨"q0".toList, true, true⟩, ⟨"q1".toList, false, false⟩]
    edges := [⟨"q0".toList, "q1".toList, "a".toList⟩, ⟨"q1".toList, "q0".toList, "b".toList⟩]
    alphabetInput := "a,b".toList }

/-- An automaton with two final states, each with a self-loop, both entered on `a` and `b`. -/
def forkCD : Automaton :=
  { nodes := [⟨"q0".toList, true, false⟩, ⟨"q1".toList, false, true⟩, ⟨"q2".toList, false, true⟩]
    edges := [⟨"q0".toList, "q1".toList, "a,b".toList⟩, ⟨"q0".toList, "q2".toList, "a,b".toList⟩,
      ⟨"q1".toList, "q1".toList, "c".toList⟩, ⟨"q2".toList, "q2".toList, "d".toList⟩]
    alphabetInput := "a,b,c,d".toList }

/-- An automaton description with two states marked initial, as an imported file can hold. -/
def twoInitial : Automaton :=
  { nodes := [⟨"q0".toList, true, true⟩, ⟨"q1".toList, true, false⟩]
    edges := [⟨"q1".toList, "q0".toList, "a".toList⟩]
    alphabetInput := "a".toList }

/-- Scenario 2: one state, initial and final, no transitions, empty alphabet. -/
def scenario2 : Automaton :=
  { nodes := [⟨"q0".toList, true, true⟩], edges := [], alphabetInput := [] }

/-- Scenario 3: one state, initial only. -/
def scenario3 : Automaton :=
  { nodes := [⟨"q0".toList, true, false⟩], edges := [], alphabetInput := "a,b".toList }

/-- Scenario 4: two disconnected states, `q0` initial and `q1` final. -/
def scenario4 : Automaton :=
  { nodes := [⟨"q0".toList, true, false⟩, ⟨"q1".toList, false, true⟩]
    edges := [], alphabetInput := "a,b".toList }

/-- The demonstration automaton with the ε marker listed in the alphabet field. -/
def demoEps : Automaton :=
  { nodes := [⟨"q0".toList, true, false⟩, ⟨"q1".toList, false, true⟩]
    edges := [⟨"q0".toList, "q1".toList, "a,ε".toList⟩, ⟨"q1".toList, "q1".toList, "b".toList⟩]
    alphabetInput := "a,b,ε".toList }

/-- An automaton whose initial state `q1` is not the first state: `q1 -a-> q0`, `q0` final. -/
def lateInitial : Automaton :=
  { nodes := [⟨"q0".toList, false, true⟩, ⟨"q1".toList, true, false⟩]
    edges := [⟨"q1".toList, "q0".toList, "a".toList⟩]
    alphabetInput := "a".toList }

/-- One state, initial and final, with a loop labelled `constructor`; alphabet `a`. -/
def constructorLabel : Automaton :=
  { nodes := [⟨"q0".toList, true, true⟩]
    edges := [⟨"q0".toList, "q0".toList, "constructor".toList⟩]
    alphabetInput := "a".toList }

/-- The states `q0` (initial) and `q1` (final), an edge `q0 -> q1` labelled `a`, and the
alphabet field `constructor`. -/
def constructorAlphabet : Automaton :=
  { nodes := [⟨"q0".toList, true, false⟩, ⟨"q1".toList, false, true⟩]
    edges := [⟨"q0".toList, "q1".toList, "a".toList⟩]
    alphabetInput := "constructor".toList }

/-- The states `q0` (initial) and `q1` (final), an edge `q0 -> q1` labelled `constructor`, and
the alphabet field `constructor`. -/
def constructorSymbol : Automaton :=
  { nodes := [⟨"q0".toList, true, false⟩, ⟨"q1".toList, false, true⟩]
    edges := [⟨"q0".toList, "q1".toList, "constructor".toList⟩]
    alphabetInput := "constructor".toList }

/-- Two disconnected states, `constructor` (initial) and `q1` (final); alphabet `a,b`. -/
def constructorState : Automaton :=
  { nodes := [⟨"constructor".toList, true, false⟩, ⟨"q1".toList, false, true⟩]
    edges := [], alphabetInput := "a,b".toList }

/-- One state `constructor`, initial and final, no transitions, empty alphabet. -/
def constructorOnly : Automaton :=
  { nodes := [⟨"constructor".toList, true, true⟩], edges := [], alphabetInput := [] }

/-! ## Reference semantics -/

/-- What the drawing library guarantees of its graph: identifiers are non-empty, no two nodes
share one, and every edge joins two nodes of the graph. -/
def WellFormed (a : Automaton) : Prop :=
  (∀ q ∈ stateIds a, q ≠ []) ∧ (stateIds a).Nodup ∧
  ∀ e ∈ a.edges, e.source ∈ stateIds a ∧ e.target ∈ stateIds a

instance (a : Automaton) : Decidable (WellFormed a) := by
  unfold WellFormed; infer_instance

/-- Acceptance by an ε-NFA given by its unit transitions `U` and final states `F`: the word `w`
(a list of symbols) is accepted from `q`.  A transition labelled ε reads nothing. -/
inductive EAccepts (U : List Transition) (F : List Str) : Str → List Str → Prop
  | final {q : Str} : q ∈ F → EAccepts U F q []
  | eps {q r : Str} {w : List Str} :
      Transition.mk q r EPSILON ∈ U → EAccepts U F r w → EAccepts U F q w
  | sym {q r s : Str} {w : List Str} :
      s ≠ EPSILON → Transition.mk q r s ∈ U → EAccepts U F r w → EAccepts U F q (s :: w)

/-- Acceptance by an NFA without ε given by its transitions `T` and final states `F`. -/
inductive NAccepts (T : List Transition) (F : List Str) : Str → List Str → Prop
  | final {q : Str} : q ∈ F → NAccepts T F q []
  | step {q r s : Str} {w : List Str} :
      Transition.mk q r s ∈ T → NAccepts T F r w → NAccepts T F q (s :: w)

/-- An edge of the graph leads from `p` to `q`, whatever its label. -/
def EdgeStep (a : Automaton) (p q : Str) : Prop :=
  ∃ e ∈ a.edges, e.source = p ∧ e.target = q

/-- The state `q` can be reached from `p` along edges of the graph. -/
def Reachable (a : Automaton) (p q : Str) : Prop :=
  Relation.ReflTransGen (EdgeStep a) p q

/-- One ε step of an adjacency structure. -/
def EpsStep (adj : Adj) (p q : Str) : Prop :=
  q ∈ targets adj p EPSILON

/-- Scan for balanced parentheses, from a given depth: the depth never goes below zero and ends
at zero. -/
def parenScan : Nat → Str → Bool
  | d, [] => d = 0
  | d, c :: cs =>
    if c = '(' then parenScan (d + 1) cs
    else if c = ')' then
      match d with
      | 0 => false
      | d' + 1 => parenScan d' cs
    else parenScan d cs

/-- Parentheses are balanced. -/
def parenBalanced (s : Str) : Bool :=
  parenScan 0 s

/-- Scan for a `|` at parenthesis depth 0, from a given depth. -/
def topLevelUnion : Nat → Str → Bool
  | _, [] => false
  | d, c :: cs =>
    if c = '(' then topLevelUnion (d + 1) cs
    else if c = ')' then topLevelUnion (d - 1) cs
    else if c = '|' ∧ d = 0 then true
    else topLevelUnion d cs

/-- Scan inside an opening parenthesis, from a given depth: the parenthesis that brings the
depth back to zero is the last character. -/
def closesAtEnd : Nat → Str → Bool
  | _, [] => false
  | d, c :: cs =>
    if c = '(' then closesAtEnd (d + 1) cs
    else if c = ')' then (if d = 1 then cs.isEmpty else closesAtEnd (d - 1) cs)
    else closesAtEnd d cs

/-- The string is wholly enclosed in one matching pair of parentheses spanning all of it. -/
def whollyEnclosed (e : Str) : Bool :=
  match e with
  | [] => false
  | c :: cs => c = '(' && closesAtEnd 1 cs

/-- The parenthesization rule in the words of the specification: the operand holds a
top-level union operator and is not wholly enclosed in a matching pair of parentheses. -/
def requiresParen (e : Str) : Bool :=
  topLevelUnion 0 e && !whollyEnclosed e

mutual
/-- Parser of the expression grammar, unions: `concat ('|' concat)*`. -/
def parseUnion : Nat → Str → Option (RegularExpression Char × Str)
  | 0, _ => none
  | n + 1, s =>
    match parseConcat n s with
    | none => none
    | some (r, '|' :: rest) =>
      match parseUnion n rest with
      | none => none
      | some (r2, rest2) => some (r + r2, rest2)
    | some (r, rest) => some (r, rest)
/-- Parser of the expression grammar, concatenations: one or more starred atoms. -/
def parseConcat : Nat → Str → Option (RegularExpression Char × Str)
  | 0, _ => none
  | n + 1, s =>
    match parseAtom n s with
    | none => none
    | some (r, rest) =>
      match parseConcat n rest with
      | some (r2, rest2) => some (r * r2, rest2)
      | none => some (r, rest)
/-- Parser of the expression grammar, atoms followed by any number of `*`: a parenthesised
union, `ε`, `∅` or a literal character. -/
def parseAtom : Nat → Str → Option (RegularExpression Char × Str)
  | 0, _ => none
  | _ + 1, [] => none
  | n + 1, c :: cs =>
    let stars := fun (r : RegularExpression Char) (rest : Str) =>
      ((rest.takeWhile (fun x => x = '*')).foldl (fun acc _ => RegularExpression.star acc) r,
        rest.dropWhile (fun x => x = '*'))
    if c = '(' then
      match parseUnion n cs with
      | some (r, ')' :: rest) => some (stars r rest)
      | _ => none
    else if c = ')' ∨ c = '|' ∨ c = '*' then none
    else if c = 'ε' then some (stars 1 cs)
    else if c = '∅' then some (stars 0 cs)
    else some (stars (RegularExpression.char c) cs)
end

/-- Reading of a whole string in the grammar with `|` of lowest precedence, implicit
concatenation, postfix `*`, parentheses, `ε` the empty word and `∅` the empty language. -/
def parseRegex (s : Str) : Option (RegularExpression Char) :=
  match parseUnion (4 * s.length + 4) s with
  | some (r, []) => some r
  | _ => none

/-! ## Predicates and invariants of the development -/

/-- No state, no symbol of an edge label and no symbol of the alphabet is a name inherited
from `Object.prototype`. -/
def PlainNames (a : Automaton) : Prop :=
  (∀ q ∈ stateIds a, q ∉ inheritedKeys) ∧
  (∀ t ∈ buildUnitTransitions a, t.symbol ∉ inheritedKeys) ∧
  (∀ s ∈ parseAlphabet a, s ∉ inheritedKeys)

instance (a : Automaton) : Decidable (PlainNames a) := by
  unfold PlainNames; infer_instance

/-- Removal of the characters `trim` removes at the end of a string. -/
def trimEnd (s : Str) : Str :=
  (s.reverse.dropWhile isTrimChar).reverse

/-- The replacement `s === 'e' ? EPSILON : s` of `normalizeLabelList`. -/
def epsOfE (s : Str) : Str :=
  if s = ['e'] then EPSILON else s


/-- Reachability by ε steps of an adjacency structure. -/
def EpsReach (adj : Adj) (p q : Str) : Prop :=
  Relation.ReflTransGen (EpsStep adj) p q

/-- The dictionary `cl` holds the ε-closure of every state of `dom`. -/
def ClosuresOK (adj : Adj) (cl : Closures) (dom : List Str) : Prop :=
  ∀ q ∈ dom, ∃ c, dictGet q cl = some c ∧ ∀ v, v ∈ c ↔ EpsReach adj q v

/-- The target `r` is reached from `q` on `s`: ε steps, one step on `s`, ε steps. -/
def ClosedStep (adj : Adj) (q s r : Str) : Prop :=
  ∃ p u, EpsReach adj q p ∧ u ∈ targets adj p s ∧ EpsReach adj u r

/-- What part 1 of `runArden` establishes about the values it computes. -/
structure PreSpec (a : Automaton) (pre : Preprocessed) : Prop where
  states : pre.states = stateIds a
  alphabet : pre.alphabet = parseAlphabet a
  adj : ∀ p s x, x ∈ targets pre.adj p s ↔ Transition.mk p x s ∈ buildUnitTransitions a
  closures : ClosuresOK pre.adj pre.closures (stateIds a)
  newFinals : ∀ q, q ∈ pre.newFinals ↔
    q ∈ stateIds a ∧ ∃ f ∈ getFinalStates a, EpsReach pre.adj q f
  noEps : ∀ t, t ∈ pre.noEps ↔ t.frm ∈ stateIds a ∧ t.symbol ∈ parseAlphabet a ∧
    ClosedStep pre.adj t.frm t.symbol t.dest

/-- The number of entries of `U` not yet in `seen`. -/
def unseen (U seen : List Str) : Nat :=
  (U.toFinset \ seen.toFinset).card

/-- The invariant of the closure loop started at `state`. -/
structure ClosureInv (adj : Adj) (state : Str) (seen stack : List Str) : Prop where
  start : state ∈ seen
  sound : ∀ v ∈ seen, Relation.ReflTransGen (EpsStep adj) state v
  pending : ∀ v ∈ stack, v ∈ seen
  closed : ∀ p ∈ seen, p ∉ stack → ∀ v, EpsStep adj p v → v ∈ seen

/-- The own keys of a dictionary. -/
def keys {β : Type} (d : List (Str × β)) : List Str :=
  d.map Prod.fst

/-- Every state is a key of the dictionary of equations. -/
def HasKeys (states : List Str) (eqs : Eqs) : Prop :=
  ∀ q ∈ states, (dictGet q eqs).isSome

/-- Every state is a key of the dictionary of equations, and the equations mention states
only. -/
def EqsOK (states : List Str) (eqs : Eqs) : Prop :=
  HasKeys states eqs ∧
  ∀ q e, dictGet q eqs = some e → ∀ v ∈ keys e.terms, v ∈ states

/-- No final state can be reached from `q` along the edges of the graph. -/
def Dead (a : Automaton) (q : Str) : Prop :=
  ∀ f ∈ getFinalStates a, ¬ Reachable a q f

/-- The invariant behind the result `∅`: the equation of a state from which no final state can
be reached has constant `∅` and mentions only such states. -/
def DeadInv (a : Automaton) (eqs : Eqs) : Prop :=
  HasKeys (stateIds a) eqs ∧
  ∀ q e, dictGet q eqs = some e → Dead a q → e.const = EMPTY ∧ ∀ v ∈ keys e.terms, Dead a v

/-! ## Dictionaries, sets and loops -/

theorem dictGet_dictSet_same {β : Type} (k : Str) (v : β) (d : List (Str × β)) :
    dictGet k (dictSet k v d) = some v := by
  induction d with
  | nil => simp [dictSet, dictGet]
  | cons kv rest ih =>
    obtain ⟨k', v'⟩ := kv
    by_cases h : k' = k
    · simp [dictSet, dictGet, h]
    · simp [dictSet, dictGet, h, ih]

theorem dictGet_dictSet_ne {β : Type} {k k' : Str} (h : k' ≠ k) (v : β) (d : List (Str × β)) :
    dictGet k' (dictSet k v d) = dictGet k' d := by
  induction d with
  | nil => simp [dictSet, dictGet, Ne.symm h]
  | cons kv rest ih =>
    obtain ⟨k2, v2⟩ := kv
    by_cases h2 : k2 = k
    · subst h2
      simp [dictSet, dictGet, Ne.symm h]
    · by_cases h3 : k2 = k'
      · subst h3
        simp [dictSet, dictGet, h2]
      · simp [dictSet, dictGet, h2, h3, ih]

theorem dictGet_dictDelete_same {β : Type} (k : Str) (d : List (Str × β)) :
    dictGet k (dictDelete k d) = none := by
  induction d with
  | nil => simp [dictDelete, dictGet]
  | cons kv rest ih =>
    obtain ⟨k2, v2⟩ := kv
    by_cases h2 : k2 = k
    · simpa [dictDelete, h2] using ih
    · simpa [dictDelete, dictGet, h2] using ih

theorem dictGet_dictDelete_ne {β : Type} {k k' : Str} (h : k' ≠ k) (d : List (Str × β)) :
    dictGet k' (dictDelete k d) = dictGet k' d := by
  induction d with
  | nil => simp [dictDelete, dictGet]
  | cons kv rest ih =>
    obtain ⟨k2, v2⟩ := kv
    by_cases h2 : k2 = k
    · subst h2
      have : k2 ≠ k' := Ne.symm h
      simpa [dictDelete, dictGet, this] using ih
    · by_cases h3 : k2 = k'
      · subst h3
        simp [dictDelete, dictGet, h2]
      · simpa [dictDelete, dictGet, h2, h3] using ih

theorem dictGet_mem {β : Type} {k : Str} {v : β} {d : List (Str × β)}
    (h : dictGet k d = some v) : (k, v) ∈ d := by
  induction d with
  | nil => simp [dictGet] at h
  | cons kv rest ih =>
    obtain ⟨k2, v2⟩ := kv
    by_cases h2 : k2 = k
    · simp [dictGet, h2] at h
      simp [h2, h]
    · simp [dictGet, h2] at h
      exact List.mem_cons_of_mem _ (ih h)

theorem mem_setAdd {α : Type} [DecidableEq α] (s : List α) (x y : α) :
    y ∈ setAdd s x ↔ y ∈ s ∨ y = x := by
  unfold setAdd
  split
  · constructor
    · exact Or.inl
    · rintro (h | h)
      · exact h
      · subst h; assumption
  · simp

theorem mem_foldl_setAdd {α : Type} [DecidableEq α] (xs s : List α) (y : α) :
    y ∈ xs.foldl setAdd s ↔ y ∈ s ∨ y ∈ xs := by
  induction xs generalizing s with
  | nil => simp
  | cons x xs ih =>
    simp only [List.foldl_cons, ih, mem_setAdd, List.mem_cons]
    tauto

theorem mem_uniq {α : Type} [DecidableEq α] (xs : List α) (y : α) : y ∈ uniq xs ↔ y ∈ xs := by
  simp [uniq, mem_foldl_setAdd]

/-- A loop that cannot throw on states satisfying an invariant indexed by the elements already
processed returns, and its result satisfies the invariant for the whole list. -/
theorem forEachE_inv {σ α : Type} (P : List α → σ → Prop) (f : σ → α → Except Err σ)
    (l : List α) (s : σ) (h0 : P [] s)
    (hstep : ∀ done x rest s, l = done ++ x :: rest → P done s →
      ∃ s', f s x = .ok s' ∧ P (done ++ [x]) s') :
    ∃ s', forEachE f l s = .ok s' ∧ P l s' := by
  induction l generalizing P s with
  | nil => exact ⟨s, rfl, h0⟩
  | cons x xs ih =>
    obtain ⟨s1, hs1, hP1⟩ := hstep [] x xs s rfl h0
    have := ih (fun done t => P (x :: done) t) s1 (by simpa using hP1)
      (fun done y rest t hl hP => by
        have := hstep (x :: done) y rest t (by simp [hl]) hP
        simpa using this)
    obtain ⟨s2, hs2, hP2⟩ := this
    exact ⟨s2, by simp [forEachE, hs1, hs2], hP2⟩

/-- The invariant rule for a loop that does not throw. -/
theorem foldl_inv {σ α : Type} (P : List α → σ → Prop) (f : σ → α → σ)
    (l : List α) (s : σ) (h0 : P [] s)
    (hstep : ∀ done x rest s, l = done ++ x :: rest → P done s → P (done ++ [x]) (f s x)) :
    P l (l.foldl f s) := by
  induction l generalizing P s with
  | nil => exact h0
  | cons x xs ih =>
    have hP1 := hstep [] x xs s rfl h0
    exact ih (fun done t => P (x :: done) t) (f s x) (by simpa using hP1)
      (fun done y rest t hl hP => by
        have := hstep (x :: done) y rest t (by simp [hl]) hP
        simpa using this)

/-! ## The closure loop -/

theorem targets_subset_entries (adj : Adj) (p s v : Str) (h : v ∈ targets adj p s) :
    v ∈ adjEntries adj := by
  unfold targets at h
  cases hrow : dictGet p adj with
  | none => simp [hrow] at h
  | some row =>
    cases hset : dictGet s row with
    | none => simp [hrow, hset] at h
    | some set =>
      simp [hrow, hset] at h
      have h1 := dictGet_mem hrow
      have h2 := dictGet_mem hset
      simp only [adjEntries, List.mem_flatten, List.mem_map]
      refine ⟨_, ⟨(p, row), h1, rfl⟩, ?_⟩
      simp only [List.mem_flatten, List.mem_map]
      exact ⟨set, ⟨(s, set), h2, rfl⟩, h⟩

theorem visit_fold_seen (next : List Str) (st : List Str × List Str) (v : Str) :
    v ∈ (next.foldl visit st).1 ↔ v ∈ st.1 ∨ v ∈ next := by
  induction next generalizing st with
  | nil => simp
  | cons x xs ih =>
    rw [List.foldl_cons, ih]
    unfold visit
    split
    · constructor
      · rintro (h | h)
        · exact Or.inl h
        · exact Or.inr (List.mem_cons_of_mem _ h)
      · rintro (h | h)
        · exact Or.inl h
        · rcases List.mem_cons.1 h with h | h
          · subst h; exact Or.inl ‹_›
          · exact Or.inr h
    · simp only [List.mem_append, List.mem_singleton, List.mem_cons]
      tauto

theorem visit_fold_stack (next : List Str) (st : List Str × List Str) (v : Str) :
    v ∈ (next.foldl visit st).2 ↔ v ∈ st.2 ∨ (v ∈ next ∧ v ∉ st.1) := by
  induction next generalizing st with
  | nil => simp
  | cons x xs ih =>
    rw [List.foldl_cons, ih]
    unfold visit
    split
    · rename_i hx
      constructor
      · rintro (h | ⟨h, h'⟩)
        · exact Or.inl h
        · exact Or.inr ⟨List.mem_cons_of_mem _ h, h'⟩
      · rintro (h | ⟨h, h'⟩)
        · exact Or.inl h
        · rcases List.mem_cons.1 h with h | h
          · subst h; exact absurd hx h'
          · exact Or.inr ⟨h, h'⟩
    · rename_i hx
      by_cases hvx : v = x
      · subst hvx
        simp [hx]
      · simp [hvx]

theorem visit_fold_measure (U next : List Str) (st : List Str × List Str)
    (h : ∀ v ∈ next, v ∈ U) :
    unseen U (next.foldl visit st).1 + (next.foldl visit st).2.length =
      unseen U st.1 + st.2.length := by
  induction next generalizing st with
  | nil => simp
  | cons x xs ih =>
    rw [List.foldl_cons, ih _ (fun v hv => h v (List.mem_cons_of_mem _ hv))]
    unfold visit
    split
    · rfl
    · rename_i hx
      have hxU : x ∈ U := h x (List.mem_cons_self _ _)
      have hmem : x ∈ U.toFinset \ st.1.toFinset := by
        simp [hxU, hx]
      have hset : U.toFinset \ (st.1 ++ [x]).toFinset = (U.toFinset \ st.1.toFinset).erase x := by
        ext y
        simp only [List.toFinset_append, List.toFinset_cons, List.toFinset_nil,
          Finset.mem_sdiff, Finset.mem_union, Finset.mem_insert, Finset.mem_erase,
          List.mem_toFinset, Finset.not_mem_empty, or_false]
        tauto
      have hpos : 0 < (U.toFinset \ st.1.toFinset).card := Finset.card_pos.2 ⟨x, hmem⟩
      simp only [unseen, hset, Finset.card_erase_of_mem hmem, List.length_cons]
      omega

theorem closureLoop_terminates (adj : Adj) (fuel : Nat) (stack seen : List Str)
    (h : unseen (adjEntries adj) seen + stack.length ≤ fuel) :
    ∃ r, closureLoop adj fuel stack seen = some r := by
  induction fuel generalizing stack seen with
  | zero =>
    cases stack with
    | nil => exact ⟨seen, by simp [closureLoop]⟩
    | cons cur stack => simp at h
  | succ n ih =>
    cases stack with
    | nil => exact ⟨seen, by simp [closureLoop]⟩
    | cons cur stack =>
      simp only [closureLoop]
      apply ih
      have := visit_fold_measure (adjEntries adj) (targets adj cur EPSILON) (seen, stack)
        (fun v hv => targets_subset_entries adj cur EPSILON v hv)
      simp only [List.length_cons] at h
      dsimp only at this
      omega

theorem closureLoop_spec (adj : Adj) (state : Str) (fuel : Nat) (stack seen r : List Str)
    (hinv : ClosureInv adj state seen stack) (h : closureLoop adj fuel stack seen = some r) :
    ∀ v, v ∈ r ↔ Relation.ReflTransGen (EpsStep adj) state v := by
  induction fuel generalizing stack seen with
  | zero =>
    cases stack with
    | cons cur stack => simp [closureLoop] at h
    | nil =>
      simp only [closureLoop, Option.some.injEq] at h
      subst h
      intro v
      refine ⟨hinv.sound v, fun hv => ?_⟩
      induction hv with
      | refl => exact hinv.start
      | tail _ hstep ih => exact hinv.closed _ ih (by simp) _ hstep
  | succ n ih =>
    cases stack with
    | nil =>
      simp only [closureLoop, Option.some.injEq] at h
      subst h
      intro v
      refine ⟨hinv.sound v, fun hv => ?_⟩
      induction hv with
      | refl => exact hinv.start
      | tail _ hstep ih => exact hinv.closed _ ih (by simp) _ hstep
    | cons cur stack =>
      simp only [closureLoop] at h
      refine ih _ _ ?_ h
      have hcur : cur ∈ seen := hinv.pending cur (List.mem_cons_self _ _)
      refine ⟨?_, ?_, ?_, ?_⟩
      · exact (visit_fold_seen _ _ _).2 (Or.inl hinv.start)
      · intro v hv
        rcases (visit_fold_seen _ _ _).1 hv with hv | hv
        · exact hinv.sound v hv
        · exact Relation.ReflTransGen.tail (hinv.sound cur hcur) hv
      · intro v hv
        rcases (visit_fold_stack _ _ _).1 hv with hv | ⟨hv, _⟩
        · exact (visit_fold_seen _ _ _).2
            (Or.inl (hinv.pending v (List.mem_cons_of_mem _ hv)))
        · exact (visit_fold_seen _ _ _).2 (Or.inr hv)
      · intro p hp hpstack v hstep
        have hpstack' : ¬ (p ∈ stack ∨ (p ∈ targets adj cur EPSILON ∧ p ∉ seen)) :=
          fun hc => hpstack ((visit_fold_stack _ (seen, stack) _).2 hc)
        rcases (visit_fold_seen _ (seen, stack) _).1 hp with hp | hp
        · by_cases hpc : p = cur
          · subst hpc
            exact (visit_fold_seen _ _ _).2 (Or.inr hstep)
          · have : p ∉ cur :: stack := by
              simp only [List.mem_cons, not_or]
              exact ⟨hpc, fun hc => hpstack' (Or.inl hc)⟩
            exact (visit_fold_seen _ _ _).2 (Or.inl (hinv.closed p hp this v hstep))
        · by_cases hps : p ∈ seen
          · by_cases hpc : p = cur
            · subst hpc
              exact (visit_fold_seen _ _ _).2 (Or.inr hstep)
            · have : p ∉ cur :: stack := by
                simp only [List.mem_cons, not_or]
                exact ⟨hpc, fun hc => hpstack' (Or.inl hc)⟩
              exact (visit_fold_seen _ _ _).2 (Or.inl (hinv.closed p hps this v hstep))
          · exact absurd (Or.inr ⟨hp, hps⟩) hpstack'

/-- The closure loop returns, and returns the states reachable by ε steps. -/
theorem epsilonClosure_spec (q : Str) (adj : Adj) :
    ∃ c, epsilonClosure q adj = some c ∧
      ∀ v, v ∈ c ↔ Relation.ReflTransGen (EpsStep adj) q v := by
  have hfuel : unseen (adjEntries adj) [q] + [q].length ≤ (adjEntries adj).length + 1 := by
    have h1 : unseen (adjEntries adj) [q] ≤ (adjEntries adj).toFinset.card :=
      Finset.card_le_card Finset.sdiff_subset
    have h2 := List.toFinset_card_le (adjEntries adj)
    simp only [List.length_singleton]
    omega
  obtain ⟨c, hc⟩ := closureLoop_terminates adj _ [q] [q] hfuel
  refine ⟨c, hc, closureLoop_spec adj q _ [q] [q] c ?_ hc⟩
  refine ⟨by simp, ?_, by simp, ?_⟩
  · intro v hv
    simp only [List.mem_singleton] at hv
    subst hv
    exact Relation.ReflTransGen.refl
  · intro p hp hps
    simp at hp hps
    exact absurd hp hps

/-! ## The adjacency structure -/

theorem addUnit_spec (adj : Adj) (t : Transition) (hfrm : (dictGet t.frm adj).isSome)
    (hsym : t.symbol ∉ inheritedKeys) :
    ∃ adj', addUnit adj t = .ok adj' ∧
      (∀ q, (dictGet q adj').isSome = (dictGet q adj).isSome) ∧
      ∀ p s x, x ∈ targets adj' p s ↔
        x ∈ targets adj p s ∨ (p = t.frm ∧ s = t.symbol ∧ x = t.dest) := by
  cases hrow : dictGet t.frm adj with
  | none => simp [hrow] at hfrm
  | some row =>
    have key : ∀ (row1 : List (Str × List Str)) (set : List Str),
        dictGet t.symbol row1 = some set →
        (∀ s, s ≠ t.symbol → dictGet s row1 = dictGet s row) →
        (∀ x, x ∈ set ↔ x ∈ targets adj t.frm t.symbol) →
        (∀ q, (dictGet q (dictSet t.frm (dictSet t.symbol (setAdd set t.dest) row1) adj)).isSome
          = (dictGet q adj).isSome) ∧
        ∀ p s x, x ∈ targets (dictSet t.frm (dictSet t.symbol (setAdd set t.dest) row1) adj) p s ↔
          x ∈ targets adj p s ∨ (p = t.frm ∧ s = t.symbol ∧ x = t.dest) := by
      intro row1 set hset hrest hmem
      constructor
      · intro q
        by_cases hq : q = t.frm
        · subst hq
          simp [dictGet_dictSet_same, hrow]
        · simp [dictGet_dictSet_ne hq]
      · intro p s x
        by_cases hp : p = t.frm
        · subst hp
          by_cases hs : s = t.symbol
          · subst hs
            simp only [targets, dictGet_dictSet_same, Option.some_bind, Option.getD_some,
              mem_setAdd, true_and]
            rw [hmem x]
            simp [targets, hrow]
          · simp only [targets, dictGet_dictSet_same, Option.some_bind, dictGet_dictSet_ne hs,
              hrest s hs, hrow, hs, false_and, and_false, or_false]
        · simp only [targets, dictGet_dictSet_ne hp, hp, false_and, or_false]
    cases hsym' : dictGet t.symbol row with
    | none =>
      have hsym2 : ¬ t.symbol ∈ inheritedKeys := hsym
      refine ⟨dictSet t.frm (dictSet t.symbol (setAdd [] t.dest) (dictSet t.symbol [] row)) adj,
        by simp [addUnit, hrow, hsym', hsym2], ?_⟩
      exact key (dictSet t.symbol [] row) [] (dictGet_dictSet_same _ _ _)
        (fun s hs => dictGet_dictSet_ne hs _ _) (fun x => by simp [targets, hrow, hsym'])
    | some set =>
      refine ⟨dictSet t.frm (dictSet t.symbol (setAdd set t.dest) row) adj,
        by simp [addUnit, hrow, hsym'], ?_⟩
      exact key row set hsym' (fun s _ => rfl) (fun x => by simp [targets, hrow, hsym'])

theorem initAdj_get (states : List Str) (q : Str) :
    dictGet q (states.foldl (fun (adj : Adj) q => dictSet q [] adj) []) =
      if q ∈ states then some [] else none := by
  refine foldl_inv (fun done (adj : Adj) => dictGet q adj = if q ∈ done then some [] else none)
    _ states [] (by simp [dictGet]) ?_
  intro done x rest adj _ hP
  by_cases hq : q = x
  · subst hq
    simp [dictGet_dictSet_same]
  · rw [dictGet_dictSet_ne hq, hP]
    simp [hq]

/-- The adjacency structure is built whenever every transition starts at a state and carries a
symbol that is no inherited name; it has a row for every state and holds exactly the unit
transitions. -/
theorem adjacency_spec (states : List Str) (units : List Transition)
    (hU : ∀ t ∈ units, t.frm ∈ states) (hS : ∀ t ∈ units, t.symbol ∉ inheritedKeys) :
    ∃ adj, adjacencyFromUnitTransitions states units = .ok adj ∧
      (∀ q ∈ states, (dictGet q adj).isSome) ∧
      ∀ p s x, x ∈ targets adj p s ↔ Transition.mk p x s ∈ units := by
  have := forEachE_inv
    (fun done (adj : Adj) => (∀ q ∈ states, (dictGet q adj).isSome) ∧
      ∀ p s x, x ∈ targets adj p s ↔ Transition.mk p x s ∈ done)
    addUnit units (states.foldl (fun (adj : Adj) q => dictSet q [] adj) [])
    ⟨fun q hq => by simp [initAdj_get, hq], fun p s x => by
      simp only [targets, initAdj_get, List.not_mem_nil, iff_false]
      split <;> simp [dictGet]⟩
    (fun done t rest adj hl hP => by
      have ht : t ∈ units := by simp [hl]
      obtain ⟨adj', hok, hkeys, htargets⟩ := addUnit_spec adj t (hP.1 _ (hU t ht)) (hS t ht)
      refine ⟨adj', hok, fun q hq => by rw [hkeys]; exact hP.1 q hq, fun p s x => ?_⟩
      rw [htargets, hP.2, List.mem_append, List.mem_singleton]
      constructor
      · rintro (h | ⟨h1, h2, h3⟩)
        · exact Or.inl h
        · subst h1 h2 h3; exact Or.inr rfl
      · rintro (h | h)
        · exact Or.inl h
        · subst h; exact Or.inr ⟨rfl, rfl, rfl⟩)
  obtain ⟨adj, hok, hrows, hadj⟩ := this
  exact ⟨adj, hok, hrows, hadj⟩

/-! ## Preprocessing -/

theorem computeClosures_spec (states : List Str) (adj : Adj) (hproto : protoKey ∉ states) :
    ∃ cl, computeClosures states adj = .ok cl ∧ ClosuresOK adj cl states := by
  have := forEachE_inv
    (fun done (cl : Closures) => (∀ q ∈ done, dictGet q cl = epsilonClosure q adj) ∧
      dictGet protoKey cl = none)
    (fun cl q =>
      match epsilonClosure q adj with
      | none => .error .diverges
      | some c =>
        if q = "size".toList ∧ (dictGet protoKey cl).isSome ∧ (dictGet q cl).isNone then
          .error .typeError
        else .ok (dictSet q c cl)) states [] ⟨by simp, rfl⟩
    (fun done x rest cl hl hP => by
      obtain ⟨c, hc, _⟩ := epsilonClosure_spec x adj
      have hx : x ∈ states := by simp [hl]
      have hxp : protoKey ≠ x := fun h => hproto (h ▸ hx)
      refine ⟨dictSet x c cl, by simp [hc, hP.2], fun q hq => ?_, ?_⟩
      · by_cases hqx : q = x
        · subst hqx
          rw [dictGet_dictSet_same, hc]
        · rw [dictGet_dictSet_ne hqx]
          rcases List.mem_append.1 hq with h | h
          · exact hP.1 q h
          · exact absurd (List.mem_singleton.1 h) hqx
      · rw [dictGet_dictSet_ne hxp]
        exact hP.2)
  obtain ⟨cl, hok, hcl, _⟩ := this
  refine ⟨cl, hok, fun q hq => ?_⟩
  obtain ⟨c, hc, hspec⟩ := epsilonClosure_spec q adj
  exact ⟨c, by rw [hcl q hq, hc], hspec⟩

theorem reclassifyFinals_spec (states finals : List Str) (adj : Adj) (cl : Closures)
    (hcl : ClosuresOK adj cl states) :
    ∃ nf, reclassifyFinals states finals cl = .ok nf ∧
      ∀ q, q ∈ nf ↔ q ∈ states ∧ ∃ f ∈ finals, EpsReach adj q f := by
  refine forEachE_inv
    (fun done (nf : List Str) => ∀ q, q ∈ nf ↔ q ∈ done ∧ ∃ f ∈ finals, EpsReach adj q f)
    _ states [] (by simp) ?_
  intro done x rest nf hl hP
  have hx : x ∈ states := by simp [hl]
  obtain ⟨c, hc, hspec⟩ := hcl x hx
  refine ⟨_, by simp only [hc]; rfl, fun q => ?_⟩
  have hany : (c.any fun y => decide (y ∈ finals)) = true ↔ ∃ f ∈ finals, EpsReach adj x f := by
    simp only [List.any_eq_true, decide_eq_true_eq]
    constructor
    · rintro ⟨f, hf, hfin⟩
      exact ⟨f, hfin, (hspec f).1 hf⟩
    · rintro ⟨f, hfin, hf⟩
      exact ⟨f, (hspec f).2 hf, hfin⟩
  by_cases h : (c.any fun y => decide (y ∈ finals)) = true
  · simp only [h, if_true, mem_setAdd, hP, List.mem_append, List.mem_singleton]
    constructor
    · rintro (⟨h1, h2⟩ | h1)
      · exact ⟨Or.inl h1, h2⟩
      · subst h1; exact ⟨Or.inr rfl, hany.1 h⟩
    · rintro ⟨h1 | h1, h2⟩
      · exact Or.inl ⟨h1, h2⟩
      · exact Or.inr h1
  · simp only [h, Bool.false_eq_true, if_false, hP, List.mem_append, List.mem_singleton]
    constructor
    · rintro ⟨h1, h2⟩
      exact ⟨Or.inl h1, h2⟩
    · rintro ⟨h1 | h1, h2⟩
      · exact ⟨h1, h2⟩
      · subst h1; exact absurd (hany.2 h2) h

theorem symbolTargets_eq (adj : Adj) (p sym : Str) (hrow : (dictGet p adj).isSome)
    (hsym : sym ∉ inheritedKeys) : symbolTargets adj p sym = .ok (targets adj p sym) := by
  obtain ⟨row, hrow⟩ := Option.isSome_iff_exists.1 hrow
  have hsym' : ¬ sym ∈ inheritedKeys := hsym
  cases hset : dictGet sym row with
  | none => simp [symbolTargets, targets, hrow, hset, hsym']
  | some set => simp [symbolTargets, targets, hrow, hset]

theorem epsReach_mem (adj : Adj) (dom : List Str)
    (hdom : ∀ p t, t ∈ targets adj p EPSILON → t ∈ dom) {q p : Str} (hq : q ∈ dom)
    (h : EpsReach adj q p) : p ∈ dom := by
  induction h with
  | refl => exact hq
  | tail _ hstep _ => exact hdom _ _ hstep

theorem reachedFrom_spec (adj : Adj) (cl : Closures) (dom : List Str) (sym : Str)
    (hcl : ClosuresOK adj cl dom) (reached : List Str) (p : Str)
    (hrow : (dictGet p adj).isSome) (hsym : sym ∉ inheritedKeys)
    (hp : ∀ t ∈ targets adj p sym, t ∈ dom) :
    ∃ r, reachedFrom adj cl sym reached p = .ok r ∧
      ∀ x, x ∈ r ↔ x ∈ reached ∨ ∃ t ∈ targets adj p sym, EpsReach adj t x := by
  have := forEachE_inv
    (fun done (r : List Str) => ∀ x, x ∈ r ↔ x ∈ reached ∨ ∃ t ∈ done, EpsReach adj t x)
    (fun r t =>
      match dictGet t cl with
      | none => .error .typeError
      | some ct => .ok (ct.foldl setAdd r)) (targets adj p sym) reached (by simp)
    (fun done t rest r hl hP => by
      have ht : t ∈ targets adj p sym := by simp [hl]
      obtain ⟨ct, hct, hspec⟩ := hcl t (hp t ht)
      refine ⟨ct.foldl setAdd r, by simp [hct], fun x => ?_⟩
      rw [mem_foldl_setAdd, hP, hspec]
      simp only [List.mem_append, List.mem_singleton]
      constructor
      · rintro ((h | ⟨u, hu, h⟩) | h)
        · exact Or.inl h
        · exact Or.inr ⟨u, Or.inl hu, h⟩
        · exact Or.inr ⟨t, Or.inr rfl, h⟩
      · rintro (h | ⟨u, hu | hu, h⟩)
        · exact Or.inl (Or.inl h)
        · exact Or.inl (Or.inr ⟨u, hu, h⟩)
        · subst hu; exact Or.inr h)
  obtain ⟨r, hok, hr⟩ := this
  exact ⟨r, by simp only [reachedFrom, symbolTargets_eq adj p sym hrow hsym]; exact hok, hr⟩

theorem reachedSet_spec (adj : Adj) (cl : Closures) (dom : List Str) (q sym : Str)
    (hcl : ClosuresOK adj cl dom) (hq : q ∈ dom)
    (hrows : ∀ p ∈ dom, (dictGet p adj).isSome) (hsym : sym ∉ inheritedKeys)
    (hdom : ∀ p s t, t ∈ targets adj p s → t ∈ dom) :
    ∃ r, reachedSet adj cl q sym = .ok r ∧ ∀ x, x ∈ r ↔ ClosedStep adj q sym x := by
  obtain ⟨cq, hcq, hspec⟩ := hcl q hq
  have := forEachE_inv
    (fun done (r : List Str) =>
      ∀ x, x ∈ r ↔ ∃ p ∈ done, ∃ t ∈ targets adj p sym, EpsReach adj t x)
    (reachedFrom adj cl sym) cq [] (by simp)
    (fun done p rest r hl hP => by
      have hpc : p ∈ cq := by simp [hl]
      have hpd : p ∈ dom :=
        epsReach_mem adj dom (fun p t => hdom p EPSILON t) hq ((hspec p).1 hpc)
      obtain ⟨r', hok, hr'⟩ := reachedFrom_spec adj cl dom sym hcl r p (hrows p hpd) hsym
        (fun t ht => hdom p sym t ht)
      refine ⟨r', hok, fun x => ?_⟩
      rw [hr', hP]
      simp only [List.mem_append, List.mem_singleton]
      constructor
      · rintro (⟨p', hp', h⟩ | h)
        · exact ⟨p', Or.inl hp', h⟩
        · exact ⟨p, Or.inr rfl, h⟩
      · rintro ⟨p', hp' | hp', h⟩
        · exact Or.inl ⟨p', hp', h⟩
        · subst hp'; exact Or.inr h)
  obtain ⟨r, hok, hr⟩ := this
  refine ⟨r, by simp [reachedSet, hcq, hok], fun x => ?_⟩
  rw [hr]
  constructor
  · rintro ⟨p, hp, t, ht, hx⟩
    exact ⟨p, t, (hspec p).1 hp, ht, hx⟩
  · rintro ⟨p, t, hp, ht, hx⟩
    exact ⟨p, (hspec p).2 hp, t, ht, hx⟩

theorem noEpsTransitions_spec (states alphabet : List Str) (adj : Adj) (cl : Closures)
    (hcl : ClosuresOK adj cl states)
    (hrows : ∀ p ∈ states, (dictGet p adj).isSome) (halpha : ∀ s ∈ alphabet, s ∉ inheritedKeys)
    (hdom : ∀ p s t, t ∈ targets adj p s → t ∈ states) :
    ∃ T, noEpsTransitions states alphabet adj cl = .ok T ∧
      ∀ t, t ∈ T ↔ t.frm ∈ states ∧ t.symbol ∈ alphabet ∧
        ClosedStep adj t.frm t.symbol t.dest := by
  refine forEachE_inv
    (fun done (T : List Transition) => ∀ t, t ∈ T ↔ t.frm ∈ done ∧ t.symbol ∈ alphabet ∧
        ClosedStep adj t.frm t.symbol t.dest)
    _ states [] (by simp) ?_
  intro done q rest T hl hP
  have hq : q ∈ states := by simp [hl]
  have := forEachE_inv
    (fun doneSym (T' : List Transition) => ∀ t, t ∈ T' ↔
      t ∈ T ∨ (t.frm = q ∧ t.symbol ∈ doneSym ∧ ClosedStep adj t.frm t.symbol t.dest))
    (noEpsSymbol adj cl q) alphabet T (by simp)
    (fun doneSym sym rest' T' hl' hP' => by
      have hsym : sym ∈ alphabet := by simp [hl']
      obtain ⟨r, hok, hr⟩ := reachedSet_spec adj cl states q sym hcl hq hrows
        (halpha sym hsym) hdom
      refine ⟨T' ++ r.map (fun x => Transition.mk q x sym), by simp [noEpsSymbol, hok], ?_⟩
      intro t
      simp only [List.mem_append, List.mem_map, hP' t, hr, List.mem_singleton]
      constructor
      · rintro ((h | ⟨h1, h2, h3⟩) | ⟨x, hx, rfl⟩)
        · exact Or.inl h
        · exact Or.inr ⟨h1, Or.inl h2, h3⟩
        · exact Or.inr ⟨rfl, Or.inr rfl, hx⟩
      · rintro (h | ⟨h1, h2 | h2, h3⟩)
        · exact Or.inl (Or.inl h)
        · exact Or.inl (Or.inr ⟨h1, h2, h3⟩)
        · refine Or.inr ⟨t.dest, ?_, ?_⟩
          · rw [← h1, ← h2]; exact h3
          · rw [← h1, ← h2])
  obtain ⟨T', hok, hT'⟩ := this
  refine ⟨T', hok, fun t => ?_⟩
  rw [hT', hP]
  simp only [List.mem_append, List.mem_singleton]
  tauto

theorem mem_buildUnitTransitions (a : Automaton) (t : Transition) :
    t ∈ buildUnitTransitions a ↔
      ∃ e ∈ a.edges, ∃ sym ∈ normalizeLabelList e.label, t = Transition.mk e.source e.target sym := by
  simp only [buildUnitTransitions, List.mem_flatten, List.mem_map]
  constructor
  · rintro ⟨l, ⟨e, he, rfl⟩, ht⟩
    obtain ⟨sym, hsym, rfl⟩ := List.mem_map.1 ht
    exact ⟨e, he, sym, hsym, rfl⟩
  · rintro ⟨e, he, sym, hsym, rfl⟩
    exact ⟨_, ⟨e, he, rfl⟩, List.mem_map.2 ⟨sym, hsym, rfl⟩⟩

theorem units_wellFormed (a : Automaton) (hwf : WellFormed a) (t : Transition)
    (ht : t ∈ buildUnitTransitions a) : t.frm ∈ stateIds a ∧ t.dest ∈ stateIds a := by
  obtain ⟨e, he, sym, _, rfl⟩ := (mem_buildUnitTransitions a t).1 ht
  exact hwf.2.2 e he

theorem protoKey_inherited : protoKey ∈ inheritedKeys := by
  decide

/-- Part 1 of `runArden` returns on every well-formed graph without inherited names, with the
values of `PreSpec`. -/
theorem preprocess_spec (a : Automaton) (hwf : WellFormed a) (hplain : PlainNames a) :
    ∃ pre, preprocess a = .ok pre ∧ PreSpec a pre := by
  obtain ⟨adj, hadj, hrows, hadjspec⟩ := adjacency_spec (stateIds a) (buildUnitTransitions a)
    (fun t ht => (units_wellFormed a hwf t ht).1) hplain.2.1
  obtain ⟨cl, hcl, hclspec⟩ := computeClosures_spec (stateIds a) adj
    (fun h => hplain.1 _ h protoKey_inherited)
  obtain ⟨nf, hnf, hnfspec⟩ := reclassifyFinals_spec (stateIds a) (getFinalStates a) adj cl hclspec
  obtain ⟨T, hT, hTspec⟩ := noEpsTransitions_spec (stateIds a) (parseAlphabet a) adj cl hclspec
    hrows hplain.2.2
    (fun p s t ht => (units_wellFormed a hwf _ ((hadjspec p s t).1 ht)).2)
  exact ⟨⟨stateIds a, parseAlphabet a, adj, cl, nf, T⟩, by simp [preprocess, hadj, hcl, hnf, hT],
    ⟨rfl, rfl, hadjspec, hclspec, hnfspec, hTspec⟩⟩

theorem noEps_dest_mem (a : Automaton) (hwf : WellFormed a) (pre : Preprocessed)
    (hspec : PreSpec a pre) (t : Transition) (ht : t ∈ pre.noEps) : t.dest ∈ stateIds a := by
  obtain ⟨_, _, p, u, _, hpu, hur⟩ := (hspec.noEps t).1 ht
  have hu : u ∈ stateIds a := (units_wellFormed a hwf _ ((hspec.adj _ _ _).1 hpu)).2
  exact epsReach_mem pre.adj (stateIds a)
    (fun p t ht => (units_wellFormed a hwf _ ((hspec.adj _ _ _).1 ht)).2) hu hur

theorem epsReach_lift (U : List Transition) (F : List Str) (adj : Adj)
    (hadj : ∀ p x, x ∈ targets adj p EPSILON → Transition.mk p x EPSILON ∈ U)
    {q v : Str} {w : List Str} (h : EpsReach adj q v) (hv : EAccepts U F v w) :
    EAccepts U F q w := by
  induction h using Relation.ReflTransGen.head_induction_on with
  | refl => exact hv
  | head hstep _ ih => exact EAccepts.eps (hadj _ _ hstep) ih

theorem eaccepts_to_naccepts (a : Automaton) (hwf : WellFormed a) (pre : Preprocessed)
    (hpre : PreSpec a pre) {q : Str} {w : List Str}
    (h : EAccepts (buildUnitTransitions a) (getFinalStates a) q w)
    (hw : ∀ s ∈ w, s ∈ parseAlphabet a) :
    ∀ q0 ∈ stateIds a, EpsReach pre.adj q0 q → NAccepts pre.noEps pre.newFinals q0 w := by
  induction h with
  | final hq =>
    intro q0 hq0 hreach
    exact NAccepts.final ((hpre.newFinals q0).2 ⟨hq0, _, hq, hreach⟩)
  | eps hstep _ ih =>
    intro q0 hq0 hreach
    exact ih hw q0 hq0 (Relation.ReflTransGen.tail hreach ((hpre.adj _ _ _).2 hstep))
  | @sym q r s w hs hstep _ ih =>
    intro q0 hq0 hreach
    have hr : r ∈ stateIds a := (units_wellFormed a hwf _ hstep).2
    refine NAccepts.step ((hpre.noEps _).2 ⟨hq0, hw s (List.mem_cons_self _ _), ?_⟩)
      (ih (fun x hx => hw x (List.mem_cons_of_mem _ hx)) r hr Relation.ReflTransGen.refl)
    exact ⟨q, r, hreach, (hpre.adj _ _ _).2 hstep, Relation.ReflTransGen.refl⟩

theorem naccepts_to_eaccepts (a : Automaton) (pre : Preprocessed)
    (hpre : PreSpec a pre) (heps : EPSILON ∉ parseAlphabet a) {q : Str} {w : List Str}
    (h : NAccepts pre.noEps pre.newFinals q w) :
    EAccepts (buildUnitTransitions a) (getFinalStates a) q w := by
  have hlift := fun {q v : Str} {w : List Str} =>
    @epsReach_lift (buildUnitTransitions a) (getFinalStates a) pre.adj
      (fun p x hx => (hpre.adj p EPSILON x).1 hx) q v w
  induction h with
  | final hq =>
    obtain ⟨_, f, hf, hreach⟩ := (hpre.newFinals _).1 hq
    exact hlift hreach (EAccepts.final hf)
  | @step q r s w hstep _ ih =>
    obtain ⟨_, hs, p, u, hqp, hpu, hur⟩ := (hpre.noEps _).1 hstep
    have hne : s ≠ EPSILON := fun h => heps (h ▸ hs)
    exact hlift hqp (EAccepts.sym hne ((hpre.adj _ _ _).1 hpu) (hlift hur ih))

/-! ## Equations and elimination -/

theorem mem_keys_of_dictGet {β : Type} {k : Str} {v : β} {d : List (Str × β)}
    (h : dictGet k d = some v) : k ∈ keys d :=
  List.mem_map.2 ⟨(k, v), dictGet_mem h, rfl⟩

theorem mem_keys_dictSet {β : Type} (k : Str) (v : β) (d : List (Str × β)) (x : Str)
    (h : x ∈ keys (dictSet k v d)) : x = k ∨ x ∈ keys d := by
  induction d with
  | nil =>
    simp only [dictSet, keys, List.map_cons, List.map_nil, List.mem_singleton] at h
    exact Or.inl h
  | cons kv rest ih =>
    obtain ⟨k2, v2⟩ := kv
    by_cases h2 : k2 = k
    · subst h2
      simp only [dictSet, ↓reduceIte, keys, List.map_cons, List.mem_cons] at h ⊢
      exact Or.inr h
    · simp only [dictSet, h2, ↓reduceIte, keys, List.map_cons, List.mem_cons] at h ⊢
      rcases h with h | h
      · exact Or.inr (Or.inl h)
      · rcases ih h with h | h
        · exact Or.inl h
        · exact Or.inr (Or.inr h)

theorem mem_keys_dictDelete {β : Type} (k : Str) (d : List (Str × β)) (x : Str)
    (h : x ∈ keys (dictDelete k d)) : x ∈ keys d := by
  simp only [keys, dictDelete, List.mem_map, List.mem_filter] at h ⊢
  obtain ⟨kv, ⟨hkv, _⟩, rfl⟩ := h
  exact ⟨kv, hkv, rfl⟩

theorem concatExpr_empty_right (a : Str) : concatExpr a EMPTY = EMPTY := by
  simp [concatExpr]

theorem unionExpr_empty_empty : unionExpr [EMPTY, EMPTY] = EMPTY := by
  decide

theorem initEquations_get (states nf : List Str) (q : Str) :
    dictGet q (initEquations states nf) =
      if q ∈ states then some (Equation.mk (if q ∈ nf then EPSILON else EMPTY) []) else none := by
  refine foldl_inv (fun done (eqs : Eqs) => dictGet q eqs =
      if q ∈ done then some (Equation.mk (if q ∈ nf then EPSILON else EMPTY) []) else none)
    _ states [] (by simp [dictGet]) ?_
  intro done x rest eqs _ hP
  by_cases hq : q = x
  · subst hq
    simp [dictGet_dictSet_same]
  · rw [dictGet_dictSet_ne hq, hP]
    simp [hq]

theorem mergeTerm_spec (k extra : Str) (terms : List (Str × Str)) (hk : k ∉ inheritedKeys) :
    ∃ c, mergeTerm k extra terms = .ok (dictSet k c terms) := by
  have hk1 : ¬ k = protoKey := fun h => hk (h ▸ protoKey_inherited)
  have hk2 : ¬ k ∈ inheritedKeys := hk
  cases hget : dictGet k terms with
  | none => exact ⟨extra, by simp [mergeTerm, hget, hk1, hk2]⟩
  | some old =>
    cases old with
    | nil => exact ⟨extra, by simp [mergeTerm, hget]⟩
    | cons c cs => exact ⟨unionExpr [c :: cs, extra], by simp [mergeTerm, hget]⟩

theorem addTerm_spec (eqs : Eqs) (t : Transition) (eq : Equation)
    (h : dictGet t.frm eqs = some eq) (hdest : t.dest ∉ inheritedKeys) :
    ∃ eq', addTerm eqs t = .ok (dictSet t.frm eq' eqs) ∧ eq'.const = eq.const ∧
      ∀ v ∈ keys eq'.terms, v = t.dest ∨ v ∈ keys eq.terms := by
  obtain ⟨c, hc⟩ := mergeTerm_spec t.dest t.symbol eq.terms hdest
  exact ⟨Equation.mk eq.const (dictSet t.dest c eq.terms), by simp only [addTerm, h, hc], rfl,
    fun v hv => mem_keys_dictSet _ _ _ v hv⟩

theorem ardenStep_spec (xk : Str) (eqs : Eqs) (eqK : Equation)
    (h : dictGet xk eqs = some eqK) (hxk : xk ∉ inheritedKeys) :
    ardenStep xk eqs = .ok eqs ∨
      ∃ eq', ardenStep xk eqs = .ok (dictSet xk eq' eqs) ∧
        (∃ factor, eq'.const = concatExpr factor eqK.const) ∧
        (∀ v ∈ keys eq'.terms, v ∈ keys eqK.terms) ∧ dictGet xk eqK.terms ≠ none := by
  have hc : ¬ ((dictGet xk eqK.terms).isNone = true ∧ xk ∈ inheritedKeys) := fun hc => hxk hc.2
  by_cases hself : (dictGet xk eqK.terms).getD EMPTY ≠ EMPTY
  · right
    refine ⟨Equation.mk (concatExpr (starExpr ((dictGet xk eqK.terms).getD EMPTY)) eqK.const)
      (dictDelete xk (eqK.terms.map (fun vc =>
        if vc.1 ≠ xk then
          (vc.1, concatExpr (starExpr ((dictGet xk eqK.terms).getD EMPTY)) vc.2) else vc))),
      by simp only [ardenStep, h]; rw [if_neg hc]; exact if_pos hself, ⟨_, rfl⟩, ?_, ?_⟩
    · intro v hv
      have := mem_keys_dictDelete _ _ _ hv
      simp only [keys, List.mem_map] at this ⊢
      obtain ⟨kv', ⟨kv, hkv, rfl⟩, rfl⟩ := this
      refine ⟨kv, hkv, ?_⟩
      split <;> rfl
    · intro hnone
      simp [hnone] at hself
  · left
    simp only [ardenStep, h]
    rw [if_neg hc]
    exact if_neg hself

theorem forEachE_mergeTerm_spec (g : Str → Str) (l d : List (Str × Str))
    (hl : ∀ v ∈ keys l, v ∉ inheritedKeys) :
    ∃ d', forEachE (fun terms vc => mergeTerm vc.1 (g vc.2) terms) l d = .ok d' ∧
      ∀ v ∈ keys d', v ∈ keys d ∨ v ∈ keys l := by
  induction l generalizing d with
  | nil => exact ⟨d, rfl, fun v hv => Or.inl hv⟩
  | cons x xs ih =>
    have hx : x.1 ∉ inheritedKeys := hl x.1 (by simp [keys])
    obtain ⟨c, hc⟩ := mergeTerm_spec x.1 (g x.2) d hx
    obtain ⟨d', hd', hkeys⟩ := ih (dictSet x.1 c d)
      (fun v hv => hl v (by
        simp only [keys, List.map_cons, List.mem_cons] at hv ⊢
        exact Or.inr hv))
    refine ⟨d', by simp only [forEachE, hc, hd'], fun v hv => ?_⟩
    simp only [keys, List.map_cons, List.mem_cons]
    rcases hkeys v hv with h1 | h1
    · rcases mem_keys_dictSet _ _ _ v h1 with h2 | h2
      · exact Or.inr (Or.inl h2)
      · exact Or.inl h2
    · exact Or.inr (Or.inr h1)

theorem substitute_spec (xk xi : Str) (eqs : Eqs) (eqI eqK : Equation)
    (hI : dictGet xi eqs = some eqI) (hK : dictGet xk eqs = some eqK)
    (hxk : xk ∉ inheritedKeys) (hterms : ∀ v ∈ keys eqK.terms, v ∉ inheritedKeys) :
    substitute xk eqs xi = .ok eqs ∨
      ∃ eq' coeff, substitute xk eqs xi = .ok (dictSet xi eq' eqs) ∧
        dictGet xk eqI.terms = some coeff ∧
        eq'.const = unionExpr [eqI.const, concatExpr coeff eqK.const] ∧
        ∀ v ∈ keys eq'.terms, v ∈ keys eqI.terms ∨ v ∈ keys eqK.terms := by
  have hxk' : ¬ xk ∈ inheritedKeys := hxk
  cases hc : dictGet xk eqI.terms with
  | none => left; simp [substitute, hI, hc, hxk']
  | some coeff =>
    cases coeff with
    | nil => left; simp [substitute, hI, hc]
    | cons c cs =>
      right
      obtain ⟨d', hd', hkeys⟩ :=
        forEachE_mergeTerm_spec (concatExpr (c :: cs)) eqK.terms eqI.terms hterms
      refine ⟨Equation.mk (unionExpr [eqI.const, concatExpr (c :: cs) eqK.const])
        (dictDelete xk d'), c :: cs, by simp only [substitute, hI, hc, hK, hd'], rfl, rfl, ?_⟩
      intro v hv
      exact hkeys v (mem_keys_dictDelete _ _ _ hv)

theorem hasKeys_dictSet (states : List Str) (eqs : Eqs) (k : Str) (e : Equation)
    (h : HasKeys states eqs) : HasKeys states (dictSet k e eqs) := by
  intro q hq
  by_cases hqk : q = k
  · subst hqk
    simp [dictGet_dictSet_same]
  · rw [dictGet_dictSet_ne hqk]
    exact h q hq

theorem eqsOK_dictSet (states : List Str) (eqs : Eqs) (k : Str) (e' : Equation)
    (h : EqsOK states eqs) (he' : ∀ v ∈ keys e'.terms, v ∈ states) :
    EqsOK states (dictSet k e' eqs) := by
  refine ⟨hasKeys_dictSet _ _ _ _ h.1, fun q e hq v hv => ?_⟩
  by_cases hqk : q = k
  · subst hqk
    rw [dictGet_dictSet_same] at hq
    cases hq
    exact he' v hv
  · rw [dictGet_dictSet_ne hqk] at hq
    exact h.2 q e hq v hv

theorem addTerm_eqsOK (states : List Str) (hplain : ∀ q ∈ states, q ∉ inheritedKeys)
    (eqs : Eqs) (t : Transition) (hfrm : t.frm ∈ states) (hdest : t.dest ∈ states)
    (h : EqsOK states eqs) : ∃ eqs', addTerm eqs t = .ok eqs' ∧ EqsOK states eqs' := by
  obtain ⟨eq, heq⟩ := Option.isSome_iff_exists.1 (h.1 t.frm hfrm)
  obtain ⟨eq', hok, _, hterms⟩ := addTerm_spec eqs t eq heq (hplain _ hdest)
  refine ⟨_, hok, eqsOK_dictSet states eqs _ eq' h (fun v hv => ?_)⟩
  rcases hterms v hv with h1 | h1
  · exact h1 ▸ hdest
  · exact h.2 _ eq heq v h1

theorem ardenStep_eqsOK (states : List Str) (hplain : ∀ q ∈ states, q ∉ inheritedKeys)
    (eqs : Eqs) (xk : Str) (hxk : xk ∈ states) (h : EqsOK states eqs) :
    ∃ eqs', ardenStep xk eqs = .ok eqs' ∧ EqsOK states eqs' := by
  obtain ⟨eqK, hK⟩ := Option.isSome_iff_exists.1 (h.1 xk hxk)
  rcases ardenStep_spec xk eqs eqK hK (hplain _ hxk) with h1 | ⟨eq', h1, _, hterms, _⟩
  · exact ⟨_, h1, h⟩
  · exact ⟨_, h1, eqsOK_dictSet states eqs _ eq' h (fun v hv => h.2 _ eqK hK v (hterms v hv))⟩

theorem substitute_eqsOK (states : List Str) (hplain : ∀ q ∈ states, q ∉ inheritedKeys)
    (eqs : Eqs) (xk xi : Str) (hxk : xk ∈ states) (hxi : xi ∈ states) (h : EqsOK states eqs) :
    ∃ eqs', substitute xk eqs xi = .ok eqs' ∧ EqsOK states eqs' := by
  obtain ⟨eqK, hK⟩ := Option.isSome_iff_exists.1 (h.1 xk hxk)
  obtain ⟨eqI, hI⟩ := Option.isSome_iff_exists.1 (h.1 xi hxi)
  rcases substitute_spec xk xi eqs eqI eqK hI hK (hplain _ hxk)
      (fun v hv => hplain _ (h.2 _ eqK hK v hv)) with h1 | ⟨eq', _, h1, _, _, hterms⟩
  · exact ⟨_, h1, h⟩
  · refine ⟨_, h1, eqsOK_dictSet states eqs _ eq' h (fun v hv => ?_)⟩
    rcases hterms v hv with h2 | h2
    · exact h.2 _ eqI hI v h2
    · exact h.2 _ eqK hK v h2

/-- The invariant rule for the elimination loop, on states none of which is an inherited name:
the loop returns, it keeps every state a key of `eqs` and the equations about states only,
and it keeps every invariant that both of its steps keep. -/
theorem elimLoop_inv (P : Eqs → Prop) (states : List Str)
    (hplain : ∀ q ∈ states, q ∉ inheritedKeys)
    (hA : ∀ xk ∈ states, ∀ eqs eqs', EqsOK states eqs → P eqs →
      ardenStep xk eqs = .ok eqs' → P eqs')
    (hS : ∀ xk ∈ states, ∀ xi ∈ states, ∀ eqs eqs', EqsOK states eqs → P eqs →
      substitute xk eqs xi = .ok eqs' → P eqs')
    (l : List Str) (hl : ∀ q ∈ l, q ∈ states) (eqs : Eqs) (hok : EqsOK states eqs)
    (h : P eqs) :
    ∃ eqs', elimLoop l eqs = .ok eqs' ∧ EqsOK states eqs' ∧ P eqs' := by
  induction l generalizing eqs with
  | nil => exact ⟨eqs, rfl, hok, h⟩
  | cons xk before ih =>
    have hxk : xk ∈ states := hl xk (List.mem_cons_self _ _)
    obtain ⟨eqs1, h1, hok1⟩ := ardenStep_eqsOK states hplain eqs xk hxk hok
    have hP1 := hA xk hxk eqs eqs1 hok h h1
    have h2 := forEachE_inv (fun _ e => EqsOK states e ∧ P e) (substitute xk) before.reverse
      eqs1 ⟨hok1, hP1⟩
      (fun done xi rest e hl' hPe => by
        have hxi : xi ∈ states := hl xi (List.mem_cons_of_mem _ (by
          have : xi ∈ before.reverse := by simp [hl']
          simpa using this))
        obtain ⟨e', h3, hok3⟩ := substitute_eqsOK states hplain e xk xi hxk hxi hPe.1
        exact ⟨e', h3, hok3, hS xk hxk xi hxi e e' hPe.1 hPe.2 h3⟩)
    obtain ⟨eqs2, h2, hok2, hP2⟩ := h2
    obtain ⟨eqs3, h3, hP3⟩ := ih (fun q hq => hl q (List.mem_cons_of_mem _ hq)) eqs2 hok2 hP2
    exact ⟨eqs3, by simp [elimLoop, h1, h2, h3], hP3⟩

theorem getInitialState_mem (a : Automaton) (q0 : Str) (h : getInitialState a = some q0) :
    q0 ∈ stateIds a := by
  simp only [getInitialState, Option.map_eq_some'] at h
  obtain ⟨n, hn, rfl⟩ := h
  have := List.mem_of_mem_head? hn
  exact List.mem_map.2 ⟨n, (List.mem_filter.1 this).1, rfl⟩

theorem initEquations_eqsOK (states nf : List Str) : EqsOK states (initEquations states nf) := by
  refine ⟨fun q hq => by simp [initEquations_get, hq], fun q e hq v hv => ?_⟩
  rw [initEquations_get] at hq
  split at hq
  · cases hq
    exact absurd hv (List.not_mem_nil _)
  · cases hq

/-- The rule by which `runArden` is analysed: on a valid automaton without inherited names, an
invariant of the system of equations that holds of the initial system and is kept by every
update of the script holds of the solved system, and `runArden` returns the constant of the
initial state's equation. -/
theorem runArden_of_invariant (a : Automaton) (hwf : WellFormed a) (hplain : PlainNames a)
    (q0 : Str) (hinit : getInitialState a = some q0) (hfin : getFinalStates a ≠ [])
    (pre : Preprocessed) (hpre : preprocess a = .ok pre) (hspec : PreSpec a pre)
    (P : Eqs → Prop)
    (h0 : P (initEquations (stateIds a) pre.newFinals))
    (hT : ∀ t ∈ pre.noEps, ∀ eqs eqs', EqsOK (stateIds a) eqs → P eqs →
      addTerm eqs t = .ok eqs' → P eqs')
    (hA : ∀ xk ∈ stateIds a, ∀ eqs eqs', EqsOK (stateIds a) eqs → P eqs →
      ardenStep xk eqs = .ok eqs' → P eqs')
    (hS : ∀ xk ∈ stateIds a, ∀ xi ∈ stateIds a, ∀ eqs eqs', EqsOK (stateIds a) eqs → P eqs →
      substitute xk eqs xi = .ok eqs' → P eqs') :
    ∃ solved eq, P solved ∧ dictGet q0 solved = some eq ∧ runArden a = .ok eq.const := by
  have hq0 : q0 ∈ stateIds a := getInitialState_mem a q0 hinit
  have hne : q0 ≠ [] := hwf.1 q0 hq0
  have hbuild := forEachE_inv (fun _ e => EqsOK (stateIds a) e ∧ P e) addTerm pre.noEps
    (initEquations (stateIds a) pre.newFinals) ⟨initEquations_eqsOK _ _, h0⟩
    (fun done t rest e hl hPe => by
      have ht : t ∈ pre.noEps := by simp [hl]
      have hfrm : t.frm ∈ stateIds a := ((hspec.noEps t).1 ht).1
      obtain ⟨e', hok, hok'⟩ := addTerm_eqsOK (stateIds a) hplain.1 e t hfrm
        (noEps_dest_mem a hwf pre hspec t ht) hPe.1
      exact ⟨e', hok, hok', hT t ht e e' hPe.1 hPe.2 hok⟩)
  obtain ⟨eqs, hb, hokb, hPb⟩ := hbuild
  obtain ⟨solved, hs, hoks, hPs⟩ := elimLoop_inv P (stateIds a) hplain.1 hA hS
    (stateIds a).reverse (fun q hq => by simpa using hq) eqs hokb hPb
  obtain ⟨eq, heq⟩ := Option.isSome_iff_exists.1 (hoks.1 q0 hq0)
  refine ⟨solved, eq, hPs, heq, ?_⟩
  have hlen : (stateIds a).length ≠ 0 := by
    intro h
    rw [List.length_eq_zero] at h
    rw [h] at hq0
    exact absurd hq0 (List.not_mem_nil _)
  have hflen : (getFinalStates a).length ≠ 0 := by
    intro h
    exact hfin (List.length_eq_zero.1 h)
  cases q0 with
  | nil => exact absurd rfl hne
  | cons c cs =>
    have hb' : buildEquations (stateIds a) pre.newFinals pre.noEps = .ok eqs := hb
    simp only [runArden, hlen, hflen, hinit, hpre, if_false, hspec.states, hb', hs, heq]

theorem getFinalStates_ne_nil (a : Automaton) (h : ∃ n ∈ a.nodes, n.final = true) :
    getFinalStates a ≠ [] := by
  obtain ⟨n, hn, hfin⟩ := h
  have : n.id ∈ getFinalStates a := by
    rw [getFinalStates, mem_uniq]
    exact List.mem_map.2 ⟨n, List.mem_filter.2 ⟨hn, hfin⟩, rfl⟩
  intro hnil
  rw [hnil] at this
  exact absurd this (List.not_mem_nil _)

theorem getInitialState_of_marked (a : Automaton) (h : ∃ n ∈ a.nodes, n.initial = true) :
    ∃ q0, getInitialState a = some q0 := by
  obtain ⟨n, hn, hinit⟩ := h
  have hmem : n ∈ a.nodes.filter (fun n => n.initial) := List.mem_filter.2 ⟨hn, hinit⟩
  cases hf : a.nodes.filter (fun n => n.initial) with
  | nil => rw [hf] at hmem; exact absurd hmem (List.not_mem_nil _)
  | cons m ms => exact ⟨m.id, by simp [getInitialState, hf]⟩

/-- On a valid automaton without inherited names `runArden` returns a result. -/
theorem runArden_returns (a : Automaton) (hwf : WellFormed a) (hplain : PlainNames a)
    (q0 : Str) (hinit : getInitialState a = some q0) (hfin : getFinalStates a ≠ []) :
    ∃ r, runArden a = .ok r := by
  obtain ⟨pre, hpre, hspec⟩ := preprocess_spec a hwf hplain
  obtain ⟨_, eq, _, _, hrun⟩ := runArden_of_invariant a hwf hplain q0 hinit hfin pre hpre hspec
    (fun _ => True) trivial (fun _ _ _ _ _ _ _ => trivial) (fun _ _ _ _ _ _ _ => trivial)
    (fun _ _ _ _ _ _ _ _ _ => trivial)
  exact ⟨_, hrun⟩

/-! ## Reachability in the graph -/

theorem dead_of_reachable (a : Automaton) {q r : Str} (hq : Dead a q) (h : Reachable a q r) :
    Dead a r :=
  fun f hf hr => hq f hf (Relation.ReflTransGen.trans h hr)

theorem unit_edgeStep (a : Automaton) {p x s : Str}
    (h : Transition.mk p x s ∈ buildUnitTransitions a) : EdgeStep a p x := by
  obtain ⟨e, he, sym, _, heq⟩ := (mem_buildUnitTransitions a _).1 h
  cases heq
  exact ⟨e, he, rfl, rfl⟩

theorem epsReach_reachable (a : Automaton) (pre : Preprocessed) (hspec : PreSpec a pre)
    {p q : Str} (h : EpsReach pre.adj p q) : Reachable a p q :=
  Relation.ReflTransGen.mono (fun _ _ hstep => unit_edgeStep a ((hspec.adj _ _ _).1 hstep)) h

theorem closedStep_reachable (a : Automaton) (pre : Preprocessed) (hspec : PreSpec a pre)
    {q s r : Str} (h : ClosedStep pre.adj q s r) : Reachable a q r := by
  obtain ⟨p, u, hqp, hpu, hur⟩ := h
  exact Relation.ReflTransGen.trans
    (Relation.ReflTransGen.tail (epsReach_reachable a pre hspec hqp)
      (unit_edgeStep a ((hspec.adj _ _ _).1 hpu)))
    (epsReach_reachable a pre hspec hur)

theorem deadInv_dictSet (a : Automaton) (eqs : Eqs) (k : Str) (e' : Equation)
    (h : DeadInv a eqs)
    (he' : Dead a k → e'.const = EMPTY ∧ ∀ v ∈ keys e'.terms, Dead a v) :
    DeadInv a (dictSet k e' eqs) := by
  refine ⟨hasKeys_dictSet _ _ _ _ h.1, fun q e hq hdead => ?_⟩
  by_cases hqk : q = k
  · subst hqk
    rw [dictGet_dictSet_same] at hq
    cases hq
    exact he' hdead
  · rw [dictGet_dictSet_ne hqk] at hq
    exact h.2 q e hq hdead

/-! ## Graphs without ε edges, and empty alphabets -/

theorem epsReach_eq_of_no_step (adj : Adj) (h : ∀ p x, ¬ EpsStep adj p x) {p q : Str}
    (hr : EpsReach adj p q) : p = q := by
  induction hr with
  | refl => rfl
  | tail _ hstep _ => exact absurd hstep (h _ _)

theorem closedStep_iff_of_no_step (adj : Adj) (h : ∀ p x, ¬ EpsStep adj p x) (q s r : Str) :
    ClosedStep adj q s r ↔ r ∈ targets adj q s := by
  constructor
  · rintro ⟨p, u, hqp, hpu, hur⟩
    rw [epsReach_eq_of_no_step adj h hqp, ← epsReach_eq_of_no_step adj h hur]
    exact hpu
  · intro hr
    exact ⟨q, r, Relation.ReflTransGen.refl, hr, Relation.ReflTransGen.refl⟩

theorem noEps_nil_of_empty_alphabet (a : Automaton) (pre : Preprocessed) (hspec : PreSpec a pre)
    (halpha : parseAlphabet a = []) : pre.noEps = [] := by
  apply List.eq_nil_iff_forall_not_mem.2
  intro t ht
  have := ((hspec.noEps t).1 ht).2.1
  rw [halpha] at this
  exact absurd this (List.not_mem_nil _)

/-! ## The claims -/

/-- C1 (the code departs from the claim): on `loopAB`, a valid automaton whose ε-NFA accepts the
empty word from its initial state `q0`, `runArden` returns `ab*`, which read in the grammar
does not match the empty word. -/
theorem C1_runArden_loopAB_not_equivalent :
    WellFormed loopAB ∧ runArden loopAB = .ok "ab*".toList ∧
    EAccepts (buildUnitTransitions loopAB) (getFinalStates loopAB) "q0".toList [] ∧
    (parseRegex "ab*".toList).map (fun r => r.rmatch []) = some false :=
  ⟨by decide, by decide, EAccepts.final (by decide), by decide⟩

/-- On a well-formed graph without inherited names whose declared alphabet does not contain ε,
part 1 of `runArden` returns, and for every state `q` and every word `w` over the alphabet the
ε-NFA accepts `w` from `q` exactly when the NFA given by `noEpsTransitions` and `newFinals`
does. -/
theorem epsilon_elimination_preserves_acceptance (a : Automaton) (hwf : WellFormed a)
    (hplain : PlainNames a) (heps : EPSILON ∉ parseAlphabet a) :
    ∃ pre, preprocess a = .ok pre ∧
      ∀ q ∈ stateIds a, ∀ w : List Str, (∀ s ∈ w, s ∈ parseAlphabet a) →
        (EAccepts (buildUnitTransitions a) (getFinalStates a) q w ↔
          NAccepts pre.noEps pre.newFinals q w) := by
  obtain ⟨pre, hpre, hspec⟩ := preprocess_spec a hwf hplain
  refine ⟨pre, hpre, fun q hq w hw => ⟨fun h => ?_, fun h => ?_⟩⟩
  · exact eaccepts_to_naccepts a hwf pre hspec h hw q hq Relation.ReflTransGen.refl
  · exact naccepts_to_eaccepts a pre hspec heps h

/-- The demonstration automaton satisfies the hypotheses of
`epsilon_elimination_preserves_acceptance`. -/
theorem epsilon_elimination_preserves_acceptance_demo :
    WellFormed demo ∧ PlainNames demo ∧ EPSILON ∉ parseAlphabet demo ∧
    ∃ pre, preprocess demo = .ok pre ∧
      ∀ q ∈ stateIds demo, ∀ w : List Str, (∀ s ∈ w, s ∈ parseAlphabet demo) →
        (EAccepts (buildUnitTransitions demo) (getFinalStates demo) q w ↔
          NAccepts pre.noEps pre.newFinals q w) :=
  ⟨by decide, by decide, by decide,
    epsilon_elimination_preserves_acceptance demo (by decide) (by decide) (by decide)⟩

/-- C2 (the code departs from the claim): on `constructorAlphabet`, a well-formed graph whose
declared alphabet is the one symbol `constructor` and so does not contain ε, part 1 of
`runArden` raises a `TypeError` in the transition loop and builds no ε-free NFA. -/
theorem C2_inherited_alphabet_symbol_stops_elimination :
    WellFormed constructorAlphabet ∧
    parseAlphabet constructorAlphabet = ["constructor".toList] ∧
    EPSILON ∉ parseAlphabet constructorAlphabet ∧
    preprocess constructorAlphabet = .error .typeError ∧
    runArden constructorAlphabet = .error .typeError :=
  ⟨by decide, by decide, by decide, by decide, by decide⟩

/-- C3 (the code departs from the claim): on `forkCD`, a valid automaton whose alphabet symbols
are the single letters `a`, `b`, `c`, `d`, `runArden` returns `(a|b)d*|b)c*`, whose parentheses
are not balanced and which the grammar does not parse. -/
theorem C3_runArden_forkCD_not_well_formed :
    WellFormed forkCD ∧
    parseAlphabet forkCD = ["a".toList, "b".toList, "c".toList, "d".toList] ∧
    runArden forkCD = .ok "(a|b)d*|b)c*".toList ∧
    parenBalanced "(a|b)d*|b)c*".toList = false ∧
    (parseRegex "(a|b)d*|b)c*".toList).isSome = false :=
  ⟨by decide, by decide, by decide, by decide, by decide⟩

/-- C4 (as stated, refuted): on the demonstration automaton `runArden` does not return `ab*`. -/
theorem C4_demo_result_is_not_ab_star : runArden demo ≠ .ok "ab*".toList := by
  decide

/-- C4 (amended): on the demonstration automaton (Scenario 1) `runArden` returns
`ε|(a|b)b*`. -/
theorem C4_demo_result : runArden demo = .ok "ε|(a|b)b*".toList := by
  decide

/-- On a well-formed graph `runArden` fails with the no-states error when there is no state,
with the no-initial-state error when there are states and none is marked initial, with the
no-final-states error when a state is marked initial and none is marked final; in every other
case it returns a result, provided no identifier is an inherited name. -/
theorem runArden_fails_exactly_on_invalid_input (a : Automaton) (hwf : WellFormed a) :
    (a.nodes = [] → runArden a = .error .noStates) ∧
    (a.nodes ≠ [] → (∀ n ∈ a.nodes, n.initial = false) → runArden a = .error .noInitial) ∧
    (a.nodes ≠ [] → (∃ n ∈ a.nodes, n.initial = true) → (∀ n ∈ a.nodes, n.final = false) →
      runArden a = .error .noFinals) ∧
    (PlainNames a → a.nodes ≠ [] → (∃ n ∈ a.nodes, n.initial = true) →
      (∃ n ∈ a.nodes, n.final = true) → ∃ r, runArden a = .ok r) := by
  have hlen : a.nodes ≠ [] → (stateIds a).length ≠ 0 := by
    intro h h0
    simp only [stateIds, List.length_map, List.length_eq_zero] at h0
    exact h h0
  refine ⟨fun h => ?_, fun h hnone => ?_, fun h hsome hnone => ?_,
    fun hplain _ hsome hfin => ?_⟩
  · simp [runArden, stateIds, h]
  · have hfilter : a.nodes.filter (fun n => n.initial) = [] := by
      rw [List.filter_eq_nil_iff]
      intro n hn
      simp [hnone n hn]
    simp [runArden, hlen h, getInitialState, hfilter]
  · obtain ⟨q0, hq0⟩ := getInitialState_of_marked a hsome
    have hne : q0 ≠ [] := hwf.1 q0 (getInitialState_mem a q0 hq0)
    have hfilter : a.nodes.filter (fun n => n.final) = [] := by
      rw [List.filter_eq_nil_iff]
      intro n hn
      simp [hnone n hn]
    cases q0 with
    | nil => exact absurd rfl hne
    | cons c cs => simp [runArden, hlen h, hq0, getFinalStates, hfilter, uniq]
  · obtain ⟨q0, hq0⟩ := getInitialState_of_marked a hsome
    exact runArden_returns a hwf hplain q0 hq0 (getFinalStates_ne_nil a hfin)

/-- Scenario 3: one state, initial only, gives the no-final-states error. -/
theorem runArden_fails_exactly_on_invalid_input_scenario3 :
    WellFormed scenario3 ∧ runArden scenario3 = .error .noFinals :=
  ⟨by decide,
    (runArden_fails_exactly_on_invalid_input scenario3 (by decide)).2.2.1
      (by decide) (by decide) (by decide)⟩

/-- C5 (the code departs from the claim): `constructorLabel` is a well-formed graph with a
state, a state marked initial and a state marked final, so it passes validation, yet
`runArden` raises a `TypeError` on it, because of its edge labelled `constructor`. -/
theorem C5_valid_automaton_raises_type_error :
    WellFormed constructorLabel ∧ constructorLabel.nodes ≠ [] ∧
    (∃ n ∈ constructorLabel.nodes, n.initial = true) ∧
    (∃ n ∈ constructorLabel.nodes, n.final = true) ∧
    buildUnitTransitions constructorLabel =
      [Transition.mk "q0".toList "q0".toList "constructor".toList] ∧
    runArden constructorLabel = .error .typeError :=
  ⟨by decide, by decide, by decide, by decide, by decide, by decide⟩

/-- C6 (the code departs from the claim): on `twoInitial`, where two states are marked initial,
`getInitialState` returns the first of them and `runArden` returns a result. -/
theorem C6_two_initial_states_accepted :
    (twoInitial.nodes.filter (fun n => n.initial)).length = 2 ∧
    getInitialState twoInitial = some "q0".toList ∧
    runArden twoInitial = .ok EPSILON :=
  ⟨by decide, by decide, by decide⟩

/-- On a well-formed graph without inherited names none of whose edges carries the ε symbol,
part 1 of `runArden` returns, and a triple is among the computed ε-free transitions exactly
when it is a unit transition of the graph whose symbol belongs to the declared alphabet. -/
theorem noEps_is_units_over_alphabet (a : Automaton) (hwf : WellFormed a)
    (hplain : PlainNames a)
    (hnoeps : ∀ e ∈ a.edges, EPSILON ∉ normalizeLabelList e.label) :
    ∃ pre, preprocess a = .ok pre ∧
      ∀ t, t ∈ pre.noEps ↔ t ∈ buildUnitTransitions a ∧ t.symbol ∈ parseAlphabet a := by
  obtain ⟨pre, hpre, hspec⟩ := preprocess_spec a hwf hplain
  refine ⟨pre, hpre, fun t => ?_⟩
  have hstep : ∀ p x, ¬ EpsStep pre.adj p x := by
    intro p x hpx
    obtain ⟨e, he, sym, hsym, heq⟩ := (mem_buildUnitTransitions a _).1 ((hspec.adj _ _ _).1 hpx)
    cases heq
    exact hnoeps e he hsym
  rw [hspec.noEps, closedStep_iff_of_no_step pre.adj hstep, hspec.adj]
  constructor
  · rintro ⟨_, hsym, hunit⟩
    exact ⟨hunit, hsym⟩
  · rintro ⟨hunit, hsym⟩
    exact ⟨(units_wellFormed a hwf t hunit).1, hsym, hunit⟩

/-- The automaton `loopAB`, whose two edges are labelled `a` and `b`, satisfies the hypotheses
of `noEps_is_units_over_alphabet`. -/
theorem noEps_is_units_over_alphabet_loopAB :
    WellFormed loopAB ∧ PlainNames loopAB ∧
    (∀ e ∈ loopAB.edges, EPSILON ∉ normalizeLabelList e.label) ∧
    ∃ pre, preprocess loopAB = .ok pre ∧
      ∀ t, t ∈ pre.noEps ↔ t ∈ buildUnitTransitions loopAB ∧ t.symbol ∈ parseAlphabet loopAB :=
  ⟨by decide, by decide, by decide,
    noEps_is_units_over_alphabet loopAB (by decide) (by decide) (by decide)⟩

/-- C7 (the code departs from the claim): on `constructorSymbol`, a well-formed graph with the
one edge `q0 -> q1` labelled `constructor`, without ε edge, and with `constructor` declared in
the alphabet, part 1 of `runArden` raises a `TypeError` when it files the edge in the adjacency
structure and computes no ε-free transition set, although the unit transition `q0 -> q1` on
`constructor` carries a symbol of the alphabet. -/
theorem C7_inherited_label_stops_preprocessing :
    WellFormed constructorSymbol ∧
    (∀ e ∈ constructorSymbol.edges, EPSILON ∉ normalizeLabelList e.label) ∧
    buildUnitTransitions constructorSymbol =
      [Transition.mk "q0".toList "q1".toList "constructor".toList] ∧
    parseAlphabet constructorSymbol = ["constructor".toList] ∧
    preprocess constructorSymbol = .error .typeError :=
  ⟨by decide, by decide, by decide, by decide, by decide⟩

/-- On a valid automaton without inherited names (well-formed graph, an initial state `q0`, some
final state) in which no final state can be reached from `q0` along edges of any label,
`runArden` returns `∅`, wherever `q0` stands in the list of states. -/
theorem unreachable_finals_give_empty (a : Automaton) (hwf : WellFormed a)
    (hplain : PlainNames a) (q0 : Str)
    (hinit : getInitialState a = some q0) (hfin : getFinalStates a ≠ [])
    (hdead : ∀ f ∈ getFinalStates a, ¬ Reachable a q0 f) :
    runArden a = .ok EMPTY := by
  obtain ⟨pre, hpre, hspec⟩ := preprocess_spec a hwf hplain
  obtain ⟨solved, eq, hP, heq, hrun⟩ := runArden_of_invariant a hwf hplain q0 hinit hfin pre hpre
    hspec (DeadInv a)
    ⟨fun q hq => by simp [initEquations_get, hq], fun q e hq hd => by
      rw [initEquations_get] at hq
      split at hq
      · cases hq
        refine ⟨?_, fun v hv => absurd hv (List.not_mem_nil _)⟩
        have hnf : q ∉ pre.newFinals := by
          intro hmem
          obtain ⟨_, f, hf, hreach⟩ := (hspec.newFinals q).1 hmem
          exact hd f hf (epsReach_reachable a pre hspec hreach)
        simp [hnf]
      · cases hq⟩
    (fun t ht eqs eqs' _ hP hok => by
      cases hget : dictGet t.frm eqs with
      | none => simp [addTerm, hget] at hok
      | some eq =>
        obtain ⟨eq', hok', hconst, hterms⟩ := addTerm_spec eqs t eq hget
          (hplain.1 _ (noEps_dest_mem a hwf pre hspec t ht))
        rw [hok'] at hok
        cases hok
        refine deadInv_dictSet a eqs _ eq' hP (fun hd => ?_)
        obtain ⟨hc, hk⟩ := hP.2 _ eq hget hd
        refine ⟨hconst.trans hc, fun v hv => ?_⟩
        rcases hterms v hv with h | h
        · subst h
          exact dead_of_reachable a hd
            (closedStep_reachable a pre hspec ((hspec.noEps t).1 ht).2.2)
        · exact hk v h)
    (fun xk hxk eqs eqs' _ hP hok => by
      obtain ⟨eqK, hK⟩ := Option.isSome_iff_exists.1 (hP.1 xk hxk)
      rcases ardenStep_spec xk eqs eqK hK (hplain.1 _ hxk) with
        h1 | ⟨eq', h1, ⟨factor, hconst⟩, hterms, _⟩
      · rw [h1] at hok; cases hok; exact hP
      · rw [h1] at hok
        cases hok
        refine deadInv_dictSet a eqs _ eq' hP (fun hd => ?_)
        obtain ⟨hc, hk⟩ := hP.2 _ eqK hK hd
        exact ⟨by rw [hconst, hc, concatExpr_empty_right], fun v hv => hk v (hterms v hv)⟩)
    (fun xk hxk xi hxi eqs eqs' hOK hP hok => by
      obtain ⟨eqK, hK⟩ := Option.isSome_iff_exists.1 (hP.1 xk hxk)
      obtain ⟨eqI, hI⟩ := Option.isSome_iff_exists.1 (hP.1 xi hxi)
      rcases substitute_spec xk xi eqs eqI eqK hI hK (hplain.1 _ hxk)
          (fun v hv => hplain.1 _ (hOK.2 _ eqK hK v hv)) with
        h1 | ⟨eq', coeff, h1, hcoeff, hconst, hterms⟩
      · rw [h1] at hok; cases hok; exact hP
      · rw [h1] at hok
        cases hok
        refine deadInv_dictSet a eqs _ eq' hP (fun hd => ?_)
        obtain ⟨hcI, hkI⟩ := hP.2 _ eqI hI hd
        have hdk : Dead a xk := hkI xk (mem_keys_of_dictGet hcoeff)
        obtain ⟨hcK, hkK⟩ := hP.2 _ eqK hK hdk
        refine ⟨by rw [hconst, hcI, hcK, concatExpr_empty_right, unionExpr_empty_empty],
          fun v hv => ?_⟩
        rcases hterms v hv with h | h
        · exact hkI v h
        · exact hkK v h)
  rw [hrun, (hP.2 q0 eq heq hdead).1]

/-- Scenario 4, `q0` initial, `q1` final, no edges, gives `∅`. -/
theorem unreachable_finals_give_empty_scenario4 :
    WellFormed scenario4 ∧ PlainNames scenario4 ∧ runArden scenario4 = .ok EMPTY :=
  ⟨by decide, by decide,
    unreachable_finals_give_empty scenario4 (by decide) (by decide) "q0".toList (by decide)
      (by decide)
      (by
        intro f hf hreach
        have hf' : f = "q1".toList := by
          have : getFinalStates scenario4 = ["q1".toList] := by decide
          rw [this] at hf
          exact List.mem_singleton.1 hf
        subst hf'
        rcases Relation.ReflTransGen.cases_tail hreach with h | ⟨b, _, e, he, _⟩
        · exact absurd h (by decide)
        · exact absurd he (List.not_mem_nil _))⟩

/-- C8 (the code departs from the claim): `constructorState` is a valid automaton, its states
are `constructor` (initial) and `q1` (final), and it has no edge, so that no final state can
be reached from the initial state; `runArden` raises a `TypeError` on it instead of returning
`∅`. -/
theorem C8_inherited_state_name_raises_type_error :
    WellFormed constructorState ∧
    getInitialState constructorState = some "constructor".toList ∧
    getFinalStates constructorState = ["q1".toList] ∧
    constructorState.edges = [] ∧
    runArden constructorState = .error .typeError :=
  ⟨by decide, by decide, by decide, by decide, by decide⟩

/-- On a valid automaton without inherited names and with an empty alphabet, no ε-free
transition is produced, and `runArden` returns `ε` when some final state lies in the ε-closure
of the initial state `q0` and `∅` otherwise. -/
theorem empty_alphabet_result (a : Automaton) (hwf : WellFormed a) (hplain : PlainNames a)
    (q0 : Str)
    (hinit : getInitialState a = some q0) (hfin : getFinalStates a ≠ [])
    (halpha : parseAlphabet a = []) :
    ∃ pre c, preprocess a = .ok pre ∧ pre.noEps = [] ∧ epsilonClosure q0 pre.adj = some c ∧
      ((∃ f ∈ c, f ∈ getFinalStates a) → runArden a = .ok EPSILON) ∧
      ((¬ ∃ f ∈ c, f ∈ getFinalStates a) → runArden a = .ok EMPTY) := by
  obtain ⟨pre, hpre, hspec⟩ := preprocess_spec a hwf hplain
  obtain ⟨c, hc, hcspec⟩ := epsilonClosure_spec q0 pre.adj
  have hq0 : q0 ∈ stateIds a := getInitialState_mem a q0 hinit
  have hnil := noEps_nil_of_empty_alphabet a pre hspec halpha
  have hterms : ∀ q e, dictGet q (initEquations (stateIds a) pre.newFinals) = some e →
      e.terms = [] := by
    intro q e hq
    rw [initEquations_get] at hq
    split at hq
    · cases hq; rfl
    · cases hq
  obtain ⟨solved, eq, hP, heq, hrun⟩ := runArden_of_invariant a hwf hplain q0 hinit hfin pre hpre
    hspec (fun eqs => eqs = initEquations (stateIds a) pre.newFinals)
    rfl
    (fun t ht => by rw [hnil] at ht; exact absurd ht (List.not_mem_nil _))
    (fun xk hxk eqs eqs' _ hP hok => by
      subst hP
      have hK : (dictGet xk (initEquations (stateIds a) pre.newFinals)).isSome := by
        simp [initEquations_get, hxk]
      obtain ⟨eqK, hK⟩ := Option.isSome_iff_exists.1 hK
      rcases ardenStep_spec xk _ eqK hK (hplain.1 _ hxk) with h1 | ⟨eq', _, _, _, hself⟩
      · rw [h1] at hok; cases hok; rfl
      · rw [hterms xk eqK hK] at hself
        exact absurd rfl hself)
    (fun xk hxk xi hxi eqs eqs' _ hP hok => by
      subst hP
      have hK : (dictGet xk (initEquations (stateIds a) pre.newFinals)).isSome := by
        simp [initEquations_get, hxk]
      have hI : (dictGet xi (initEquations (stateIds a) pre.newFinals)).isSome := by
        simp [initEquations_get, hxi]
      obtain ⟨eqK, hK⟩ := Option.isSome_iff_exists.1 hK
      obtain ⟨eqI, hI⟩ := Option.isSome_iff_exists.1 hI
      rcases substitute_spec xk xi _ eqI eqK hI hK (hplain.1 _ hxk)
          (fun v hv => by rw [hterms xk eqK hK] at hv; exact absurd hv (List.not_mem_nil _))
        with h1 | ⟨eq', coeff, _, hcoeff, _⟩
      · rw [h1] at hok; cases hok; rfl
      · rw [hterms xi eqI hI] at hcoeff
        simp [dictGet] at hcoeff)
  subst hP
  rw [initEquations_get] at heq
  simp only [hq0, if_true, Option.some.injEq] at heq
  have hnf : q0 ∈ pre.newFinals ↔ ∃ f ∈ c, f ∈ getFinalStates a := by
    rw [hspec.newFinals]
    constructor
    · rintro ⟨_, f, hf, hreach⟩
      exact ⟨f, (hcspec f).2 hreach, hf⟩
    · rintro ⟨f, hfc, hf⟩
      exact ⟨hq0, f, hf, (hcspec f).1 hfc⟩
  refine ⟨pre, c, hpre, hnil, hc, fun h => ?_, fun h => ?_⟩
  · rw [hrun, ← heq]
    simp [hnf.2 h]
  · rw [hrun, ← heq]
    have : q0 ∉ pre.newFinals := fun hmem => h (hnf.1 hmem)
    simp [this]

/-- Scenario 2, one state, initial and final, no transitions, empty alphabet, gives `ε`. -/
theorem empty_alphabet_result_scenario2 :
    WellFormed scenario2 ∧ PlainNames scenario2 ∧ parseAlphabet scenario2 = [] ∧
    runArden scenario2 = .ok EPSILON ∧
    ∃ pre c, preprocess scenario2 = .ok pre ∧ pre.noEps = [] ∧
      epsilonClosure "q0".toList pre.adj = some c ∧
      ((∃ f ∈ c, f ∈ getFinalStates scenario2) → runArden scenario2 = .ok EPSILON) ∧
      ((¬ ∃ f ∈ c, f ∈ getFinalStates scenario2) → runArden scenario2 = .ok EMPTY) :=
  ⟨by decide, by decide, by decide, by decide,
    empty_alphabet_result scenario2 (by decide) (by decide) "q0".toList (by decide) (by decide)
      (by decide)⟩

/-- C9 (the code departs from the claim): `constructorOnly` is a valid automaton with an empty
alphabet whose one state `constructor` is initial and final, so that a final state lies in
the ε-closure of the initial state; `runArden` raises a `TypeError` on it instead of returning
`ε`. -/
theorem C9_inherited_state_name_raises_type_error :
    WellFormed constructorOnly ∧ parseAlphabet constructorOnly = [] ∧
    getInitialState constructorOnly = some "constructor".toList ∧
    getFinalStates constructorOnly = ["constructor".toList] ∧
    epsilonClosure "constructor".toList [("constructor".toList, [])] =
      some ["constructor".toList] ∧
    runArden constructorOnly = .error .typeError :=
  ⟨by decide, by decide, by decide, by decide, by decide, by decide⟩

/-- C10: for every adjacency structure and every state `q`, `epsilonClosure` returns a set that
contains `q`, that contains the closure of each of its members, and each of whose members lies
in the closure of one of its members: the union of the closures of its members is the set
itself. -/
theorem C10_epsilonClosure_fixed_point (adj : Adj) (q : Str) :
    ∃ c, epsilonClosure q adj = some c ∧ q ∈ c ∧
      (∀ p ∈ c, ∃ cp, epsilonClosure p adj = some cp ∧ ∀ v ∈ cp, v ∈ c) ∧
      (∀ v ∈ c, ∃ p ∈ c, ∃ cp, epsilonClosure p adj = some cp ∧ v ∈ cp) := by
  obtain ⟨c, hc, hspec⟩ := epsilonClosure_spec q adj
  have hq : q ∈ c := (hspec q).2 Relation.ReflTransGen.refl
  refine ⟨c, hc, hq, fun p hp => ?_, fun v hv => ⟨q, hq, c, hc, hv⟩⟩
  obtain ⟨cp, hcp, hpspec⟩ := epsilonClosure_spec p adj
  exact ⟨cp, hcp, fun v hv =>
    (hspec v).2 (Relation.ReflTransGen.trans ((hspec p).1 hp) ((hpspec v).1 hv))⟩

/-! ## The number of iterations of the closure loop -/

theorem visit_fold_length (next : List Str) (st : List Str × List Str) :
    (next.foldl visit st).2.length + st.1.length = st.2.length + (next.foldl visit st).1.length := by
  induction next generalizing st with
  | nil => simp [Nat.add_comm]
  | cons x xs ih =>
    rw [List.foldl_cons]
    have h := ih (visit st x)
    unfold visit at h ⊢
    split at h
    · rename_i hx
      simpa [hx] using h
    · rename_i hx
      simp only [hx, if_false, List.length_append, List.length_cons, List.length_nil] at h ⊢
      omega

theorem visit_fold_length_le (next : List Str) (st : List Str × List Str) :
    st.1.length ≤ (next.foldl visit st).1.length := by
  induction next generalizing st with
  | nil => exact le_refl _
  | cons x xs ih =>
    rw [List.foldl_cons]
    refine le_trans ?_ (ih (visit st x))
    unfold visit
    split
    · exact le_refl _
    · simp

theorem visit_fold_nodup (next : List Str) (st : List Str × List Str) (h : st.1.Nodup) :
    (next.foldl visit st).1.Nodup := by
  induction next generalizing st with
  | nil => exact h
  | cons x xs ih =>
    rw [List.foldl_cons]
    apply ih
    unfold visit
    split
    · exact h
    · rename_i hx
      exact List.nodup_append.2 ⟨h, List.nodup_singleton x, by
        intro y hy hy'
        rw [List.mem_singleton] at hy'
        subst hy'
        exact hx hy⟩

theorem closureLoop_mono (adj : Adj) (fuel k : Nat) (stack seen r : List Str)
    (h : closureLoop adj fuel stack seen = some r) :
    closureLoop adj (fuel + k) stack seen = some r := by
  induction fuel generalizing stack seen with
  | zero =>
    cases stack with
    | nil =>
      cases k <;> simpa [closureLoop] using h
    | cons cur stack => simp [closureLoop] at h
  | succ n ih =>
    cases stack with
    | nil =>
      simpa [closureLoop] using h
    | cons cur stack =>
      rw [Nat.add_right_comm]
      simp only [closureLoop] at h ⊢
      exact ih _ _ h

/-- A run of the closure loop that returns `r` keeps the set duplicate-free, only lets it grow,
and takes one iteration per state on the stack or added to the set afterwards. -/
theorem closureLoop_iterations (adj : Adj) (fuel : Nat) (stack seen r : List Str)
    (hnd : seen.Nodup) (h : closureLoop adj fuel stack seen = some r) :
    r.Nodup ∧ seen.length ≤ r.length ∧
      closureLoop adj (stack.length + (r.length - seen.length)) stack seen = some r := by
  induction fuel generalizing stack seen with
  | zero =>
    cases stack with
    | cons cur stack => simp [closureLoop] at h
    | nil =>
      simp only [closureLoop, Option.some.injEq] at h
      subst h
      exact ⟨hnd, le_refl _, by simp [closureLoop]⟩
  | succ n ih =>
    cases stack with
    | nil =>
      simp only [closureLoop, Option.some.injEq] at h
      subst h
      exact ⟨hnd, le_refl _, by simp [closureLoop]⟩
    | cons cur stack =>
      simp only [closureLoop] at h
      obtain ⟨h1, h2, h3⟩ := ih _ _ (visit_fold_nodup _ (seen, stack) hnd) h
      have hlen := visit_fold_length (targets adj cur EPSILON) (seen, stack)
      have hle := visit_fold_length_le (targets adj cur EPSILON) (seen, stack)
      dsimp only at hlen hle
      refine ⟨h1, by omega, ?_⟩
      have hfuel : (cur :: stack).length + (r.length - seen.length) =
          ((List.foldl visit (seen, stack) (targets adj cur EPSILON)).2.length +
            (r.length - (List.foldl visit (seen, stack) (targets adj cur EPSILON)).1.length))
            + 1 := by
        simp only [List.length_cons]
        omega
      rw [hfuel]
      simp only [closureLoop]
      exact h3

/-! ## Laws of `concatExpr` and `starExpr` -/

theorem empty_ne_epsilon : EMPTY ≠ EPSILON := by
  decide

theorem getLast?_append_star (a : Str) : (a ++ ['*']).getLast? = some '*' := by
  simp

theorem starExpr_of_star (r : Str) (hlast : r.getLast? = some '*') (h1 : r ≠ EMPTY)
    (h2 : r ≠ EPSILON) : starExpr r = r := by
  simp [starExpr, h1, h2, hlast]

theorem append_star_ne_empty (a : Str) : a ++ ['*'] ≠ EMPTY := by
  cases a with
  | nil => decide
  | cons c cs =>
    intro h
    have := congrArg List.length h
    simp [EMPTY] at this

theorem append_star_ne_epsilon (a : Str) : a ++ ['*'] ≠ EPSILON := by
  cases a with
  | nil => decide
  | cons c cs =>
    intro h
    have := congrArg List.length h
    simp [EPSILON] at this

/-- Every result of `starExpr` is `ε` or ends in `*`. -/
theorem starExpr_shape (a : Str) :
    starExpr a = EPSILON ∨ (starExpr a).getLast? = some '*' := by
  by_cases h1 : a = EMPTY ∨ a = EPSILON
  · left
    simp [starExpr, h1]
  · right
    by_cases h2 : a.getLast? = some '*'
    · have : starExpr a = a := by simp [starExpr, h1, h2]
      rw [this]
      exact h2
    · by_cases h3 : needsParen a = true
      · have : starExpr a = (['('] ++ a ++ [')']) ++ ['*'] := by simp [starExpr, h1, h2, h3]
        rw [this]
        exact getLast?_append_star _
      · have : starExpr a = a ++ ['*'] := by simp [starExpr, h1, h2, h3]
        rw [this]
        exact getLast?_append_star _

theorem preprocess_noEps_of_eval (a : Automaton) (l : List Transition)
    (h : (preprocess a).toOption.map (fun pre => pre.noEps) = some l) :
    ∃ pre, preprocess a = .ok pre ∧ pre.noEps = l := by
  cases hp : preprocess a with
  | error e => simp [hp, Except.toOption] at h
  | ok pre =>
    refine ⟨pre, rfl, ?_⟩
    simpa [hp, Except.toOption] using h

/-! ## Splitting, joining and duplicate removal -/

theorem split_ne_nil (sep : Char) (s : Str) : split sep s ≠ [] := by
  cases s with
  | nil => simp [split]
  | cons c cs =>
    unfold split
    split
    · simp
    · split <;> simp

theorem join_cons_cons (sep : Str) (x : Char) (p : Str) (ps : List Str) :
    join sep ((x :: p) :: ps) = x :: join sep (p :: ps) := by
  cases ps with
  | nil => simp [join]
  | cons q qs => simp [join]

theorem join_split (sep : Char) (s : Str) : join [sep] (split sep s) = s := by
  induction s with
  | nil => simp [split, join]
  | cons c cs ih =>
    unfold split
    by_cases hc : c = sep
    · simp only [hc, if_true]
      cases hsp : split sep cs with
      | nil => exact absurd hsp (split_ne_nil sep cs)
      | cons p ps =>
        rw [hsp] at ih
        simp [join, ih]
    · simp only [hc, if_false]
      cases hsp : split sep cs with
      | nil => exact absurd hsp (split_ne_nil sep cs)
      | cons p ps =>
        rw [hsp] at ih
        simp only [join_cons_cons, ih]

theorem not_mem_of_mem_split (sep : Char) (s p : Str) (hp : p ∈ split sep s) : sep ∉ p := by
  induction s generalizing p with
  | nil =>
    simp only [split, List.mem_singleton] at hp
    subst hp
    simp
  | cons c cs ih =>
    unfold split at hp
    by_cases hc : c = sep
    · simp only [hc, if_true, List.mem_cons] at hp
      rcases hp with hp | hp
      · subst hp; simp
      · exact ih p hp
    · simp only [hc, if_false] at hp
      cases hsp : split sep cs with
      | nil => exact absurd hsp (split_ne_nil sep cs)
      | cons q qs =>
        rw [hsp] at hp ih
        simp only [List.mem_cons] at hp
        rcases hp with hp | hp
        · subst hp
          have := ih q (List.mem_cons_self _ _)
          simp only [List.mem_cons, not_or]
          exact ⟨fun h => hc h.symm, this⟩
        · exact ih p (List.mem_cons_of_mem _ hp)

theorem split_of_not_mem (sep : Char) (p : Str) (h : sep ∉ p) : split sep p = [p] := by
  induction p with
  | nil => simp [split]
  | cons c cs ih =>
    simp only [List.mem_cons, not_or] at h
    unfold split
    have hc : ¬ c = sep := fun hc => h.1 hc.symm
    simp only [hc, if_false, ih h.2]

theorem split_append_sep (sep : Char) (p rest : Str) (h : sep ∉ p) :
    split sep (p ++ sep :: rest) = p :: split sep rest := by
  induction p with
  | nil => simp [split]
  | cons c cs ih =>
    simp only [List.mem_cons, not_or] at h
    have hc : ¬ c = sep := fun hc => h.1 hc.symm
    have ih' := ih h.2
    rw [List.cons_append, split]
    simp only [hc, if_false, ih']

theorem split_join (sep : Char) (l : List Str) (hl : l ≠ []) (h : ∀ p ∈ l, sep ∉ p) :
    split sep (join [sep] l) = l := by
  induction l with
  | nil => exact absurd rfl hl
  | cons p ps ih =>
    cases ps with
    | nil => simpa [join] using split_of_not_mem sep p (h p (List.mem_cons_self _ _))
    | cons q qs =>
      have hp := h p (List.mem_cons_self _ _)
      have := ih (by simp) (fun x hx => h x (List.mem_cons_of_mem _ hx))
      simp only [join, List.append_assoc, List.singleton_append]
      rw [split_append_sep sep p _ hp, this]

theorem foldl_setAdd_of_nodup {α : Type} [DecidableEq α] (l acc : List α)
    (h : (acc ++ l).Nodup) : l.foldl setAdd acc = acc ++ l := by
  induction l generalizing acc with
  | nil => simp
  | cons x xs ih =>
    have hx : x ∉ acc := by
      intro hx
      have := List.nodup_append.1 h
      exact this.2.2 hx (List.mem_cons_self _ _)
    rw [List.foldl_cons]
    have hset : setAdd acc x = acc ++ [x] := by simp [setAdd, hx]
    rw [hset, ih (acc ++ [x]) (by simpa using h)]
    simp

theorem foldl_setAdd_of_subset {α : Type} [DecidableEq α] (l acc : List α)
    (h : ∀ x ∈ l, x ∈ acc) : l.foldl setAdd acc = acc := by
  induction l with
  | nil => rfl
  | cons x xs ih =>
    rw [List.foldl_cons]
    have hset : setAdd acc x = acc := by simp [setAdd, h x (List.mem_cons_self _ _)]
    rw [hset]
    exact ih (fun y hy => h y (List.mem_cons_of_mem _ hy))

theorem uniq_of_nodup {α : Type} [DecidableEq α] (l : List α) (h : l.Nodup) : uniq l = l := by
  simpa [uniq] using foldl_setAdd_of_nodup l [] (by simpa using h)

theorem uniq_append_of_subset {α : Type} [DecidableEq α] (l l' : List α) (h : l.Nodup)
    (hsub : ∀ x ∈ l', x ∈ l) : uniq (l ++ l') = l := by
  unfold uniq
  rw [List.foldl_append]
  have : l.foldl setAdd [] = l := uniq_of_nodup l h
  rw [this]
  exact foldl_setAdd_of_subset l' l hsub

theorem uniq_concat {α : Type} [DecidableEq α] (l : List α) (x : α) :
    uniq (l ++ [x]) = setAdd (uniq l) x := by
  simp [uniq, List.foldl_append]

theorem uniq_nodup {α : Type} [DecidableEq α] (l : List α) : (uniq l).Nodup := by
  induction l using List.reverseRecOn with
  | nil => simp [uniq]
  | append_singleton xs x ih =>
    rw [uniq_concat]
    unfold setAdd
    split
    · exact ih
    · rename_i hx
      exact List.nodup_append.2 ⟨ih, List.nodup_singleton x, by
        intro y hy hy'
        rw [List.mem_singleton] at hy'
        subst hy'
        exact hx hy⟩

/-- The duplicate removal of the script keeps the first occurrence of each element. -/
theorem uniq_eq_dedup {α : Type} [DecidableEq α] (l : List α) :
    uniq l = (l.reverse.dedup).reverse := by
  induction l using List.reverseRecOn with
  | nil => simp [uniq]
  | append_singleton xs x ih =>
    rw [uniq_concat, List.reverse_append, List.reverse_singleton, List.singleton_append]
    by_cases hx : x ∈ xs
    · rw [List.dedup_cons_of_mem (by simpa using hx), ← ih]
      simp [setAdd, mem_uniq, hx]
    · rw [List.dedup_cons_of_not_mem (by simpa using hx), List.reverse_cons, ← ih]
      simp [setAdd, mem_uniq, hx]

/-! ## Trimming -/

theorem dropWhile_head (f : Char → Bool) (l : Str) :
    l.dropWhile f = [] ∨ ∃ c t, l.dropWhile f = c :: t ∧ f c = false := by
  induction l with
  | nil => exact Or.inl rfl
  | cons x xs ih =>
    by_cases hx : f x = true
    · simpa [List.dropWhile_cons, hx] using ih
    · right
      exact ⟨x, xs, by simp [List.dropWhile_cons, hx], by simpa using hx⟩

theorem dropWhile_dropWhile (f : Char → Bool) (l : Str) :
    (l.dropWhile f).dropWhile f = l.dropWhile f := by
  rcases dropWhile_head f l with h | ⟨c, t, h, hc⟩
  · simp [h]
  · rw [h]
    simp [List.dropWhile_cons, hc]

theorem trimEnd_concat (l : Str) (x : Char) :
    trimEnd (l ++ [x]) = if isTrimChar x then trimEnd l else l ++ [x] := by
  unfold trimEnd
  rw [List.reverse_append, List.reverse_singleton, List.singleton_append, List.dropWhile_cons]
  split <;> simp

theorem trimEnd_cons_head (c : Char) (t : Str) (hc : isTrimChar c = false) :
    ∃ t', trimEnd (c :: t) = c :: t' := by
  induction t using List.reverseRecOn with
  | nil => exact ⟨[], by simp [trimEnd, List.dropWhile_cons, hc]⟩
  | append_singleton xs x ih =>
    rw [← List.cons_append, trimEnd_concat]
    split
    · exact ih
    · exact ⟨xs ++ [x], rfl⟩

theorem trimEnd_trimEnd (l : Str) : trimEnd (trimEnd l) = trimEnd l := by
  unfold trimEnd
  rw [List.reverse_reverse, dropWhile_dropWhile]

theorem trim_eq_trimEnd (s : Str) : trim s = trimEnd (s.dropWhile isTrimChar) :=
  rfl

theorem trim_trim (s : Str) : trim (trim s) = trim s := by
  rw [trim_eq_trimEnd s]
  rcases dropWhile_head isTrimChar s with h | ⟨c, t, h, hc⟩
  · rw [h]
    decide
  · rw [h]
    obtain ⟨t', ht'⟩ := trimEnd_cons_head c t hc
    rw [trim_eq_trimEnd, ht']
    have : (c :: t').dropWhile isTrimChar = c :: t' := by simp [List.dropWhile_cons, hc]
    rw [this, ← ht', trimEnd_trimEnd]

theorem mem_of_mem_trim (s : Str) (x : Char) (h : x ∈ trim s) : x ∈ s := by
  unfold trim at h
  rw [List.mem_reverse] at h
  have h1 := (List.dropWhile_sublist isTrimChar).subset h
  rw [List.mem_reverse] at h1
  exact (List.dropWhile_sublist isTrimChar).subset h1

/-! ## Canonical label lists and unions -/

theorem normalizeLabelList_eq (raw : Str) :
    normalizeLabelList raw =
      uniq ((((split ',' raw).map trim).filter (fun s => s ≠ [])).map epsOfE) :=
  rfl

/-- Every symbol of a normalized label list is non-empty, trimmed, free of commas and left
alone by the replacement of `e`. -/
theorem normalizeLabelList_mem (raw s : Str) (h : s ∈ normalizeLabelList raw) :
    s ≠ [] ∧ trim s = s ∧ ',' ∉ s ∧ epsOfE s = s := by
  rw [normalizeLabelList_eq, mem_uniq, List.mem_map] at h
  obtain ⟨t, ht, rfl⟩ := h
  rw [List.mem_filter, List.mem_map] at ht
  obtain ⟨⟨p, hp, rfl⟩, hne⟩ := ht
  have hne' : trim p ≠ [] := by simpa using hne
  by_cases he : trim p = ['e']
  · have : epsOfE (trim p) = EPSILON := by simp [epsOfE, he]
    rw [this]
    exact ⟨by decide, by decide, by decide, by decide⟩
  · have : epsOfE (trim p) = trim p := by simp [epsOfE, he]
    rw [this]
    exact ⟨hne', trim_trim p, fun hc =>
      not_mem_of_mem_split ',' raw p hp (mem_of_mem_trim p ',' hc), this⟩

theorem map_eq_self {α : Type} (g : α → α) (l : List α) (h : ∀ x ∈ l, g x = x) :
    l.map g = l := by
  induction l with
  | nil => rfl
  | cons x xs ih =>
    rw [List.map_cons, h x (List.mem_cons_self _ _),
      ih (fun y hy => h y (List.mem_cons_of_mem _ hy))]

/-- The value of `unionExpr` on operands whose pieces, once cleaned and deduplicated, are a
non-empty list `l`. -/
theorem unionExpr_of_pieces (parts : List Str) (l : List Str) (hl : l ≠ [])
    (h : uniq ((((parts.map (fun p => (split '|' p).map trim)).flatten).filter
      (fun x => x ≠ [])).filter (fun x => x ≠ EMPTY)) = l) :
    unionExpr parts = join ['|'] l := by
  unfold unionExpr
  simp only [h]
  cases l with
  | nil => exact absurd rfl hl
  | cons x xs =>
    cases xs with
    | nil => rfl
    | cons y ys => rfl

/-- On an automaton that passes validation, `runArden` returns the constant that the solved
system `solvedEquations` holds for the initial state. -/
theorem runArden_eq_solved (a : Automaton) (c : Char) (cs : Str)
    (hstates : stateIds a ≠ []) (hinit : getInitialState a = some (c :: cs))
    (hfin : getFinalStates a ≠ []) :
    runArden a =
      match solvedEquations a with
      | .error e => .error e
      | .ok solved =>
        match dictGet (c :: cs) solved with
        | none => if (c :: cs) ∈ inheritedKeys then .error .nativeValue else .error .typeError
        | some eq => .ok eq.const := by
  have h1 : (stateIds a).length ≠ 0 := fun h => hstates (List.length_eq_zero.1 h)
  have h2 : (getFinalStates a).length ≠ 0 := fun h => hfin (List.length_eq_zero.1 h)
  simp only [runArden, solvedEquations, h1, h2, hinit, if_false]
  cases preprocess a with
  | error e => rfl
  | ok pre =>
    dsimp only
    cases buildEquations pre.states pre.newFinals pre.noEps with
    | error e => rfl
    | ok eqs => rfl

/-! ## The claims, continued -/

/-- C11: for every adjacency structure and every start state `q`, the closure loop returns: it
yields a duplicate-free set `c`, and any bound of at least as many iterations as `c` has
states is enough, since each state enters the set and the stack once. -/
theorem C11_epsilonClosure_terminates (adj : Adj) (q : Str) :
    ∃ c, epsilonClosure q adj = some c ∧ c.Nodup ∧
      ∀ fuel, c.length ≤ fuel → closureLoop adj fuel [q] [q] = some c := by
  obtain ⟨c, hc, _⟩ := epsilonClosure_spec q adj
  obtain ⟨hnd, hlen, hexact⟩ := closureLoop_iterations adj _ [q] [q] c (List.nodup_singleton q) hc
  refine ⟨c, hc, hnd, fun fuel hfuel => ?_⟩
  simp only [List.length_singleton] at hlen hexact
  have hfuel' : fuel = (1 + (c.length - 1)) + (fuel - c.length) := by omega
  rw [hfuel']
  exact closureLoop_mono adj _ _ [q] [q] c hexact

/-- C12 (the code departs from the claim): the operands `(a|b)c` and `(a|b)d` are non-empty,
trimmed, different from `∅` and from each other, balanced and without `|` outside parentheses,
yet `unionExpr` returns `(a|b)c|b)d` for them and not `(a|b)c|(a|b)d`. -/
theorem C12_unionExpr_splits_inside_parentheses :
    (trim "(a|b)c".toList = "(a|b)c".toList ∧ trim "(a|b)d".toList = "(a|b)d".toList) ∧
    (parenBalanced "(a|b)c".toList = true ∧ parenBalanced "(a|b)d".toList = true) ∧
    (topLevelUnion 0 "(a|b)c".toList = false ∧ topLevelUnion 0 "(a|b)d".toList = false) ∧
    unionExpr ["(a|b)c".toList, "(a|b)d".toList] = "(a|b)c|b)d".toList ∧
    unionExpr ["(a|b)c".toList, "(a|b)d".toList] ≠ "(a|b)c".toList ++ ['|'] ++ "(a|b)d".toList :=
  ⟨by decide, by decide, by decide, by decide, by decide⟩

/-- C14: for every expression string `a`, `∅` absorbs and `ε` is neutral for `concatExpr` on
both sides. -/
theorem C14_concatExpr_absorption_identity (a : Str) :
    concatExpr a EMPTY = EMPTY ∧ concatExpr EMPTY a = EMPTY ∧
    concatExpr a EPSILON = a ∧ concatExpr EPSILON a = a := by
  refine ⟨by simp [concatExpr], by simp [concatExpr], ?_, ?_⟩
  · by_cases h1 : a = EMPTY
    · subst h1; simp [concatExpr]
    · by_cases h2 : a = EPSILON
      · subst h2; decide
      · simp [concatExpr, h1, h2, empty_ne_epsilon.symm]
  · by_cases h1 : a = EMPTY
    · subst h1; simp [concatExpr]
    · simp [concatExpr, h1, empty_ne_epsilon.symm]

/-- C15: `starExpr(∅)` and `starExpr(ε)` are `ε`; for every expression string `a`,
`starExpr(starExpr(a))` is `starExpr(a)`; an operand that already ends in `*` is returned
unchanged, character for character; and every result is `ε` or ends in `*`, which is why the
second application changes nothing. -/
theorem C15_starExpr_idempotent (a : Str) :
    starExpr EMPTY = EPSILON ∧ starExpr EPSILON = EPSILON ∧
    starExpr (starExpr a) = starExpr a ∧
    starExpr (a ++ ['*']) = a ++ ['*'] ∧
    (starExpr a = EPSILON ∨ (starExpr a).getLast? = some '*') := by
  have hres : starExpr a = EPSILON ∨ (starExpr a).getLast? = some '*' := starExpr_shape a
  refine ⟨by decide, by decide, ?_, ?_, hres⟩
  · rcases hres with h | h
    · rw [h]
      decide
    · by_cases h1 : starExpr a = EMPTY
      · rw [h1] at h
        exact absurd h (by decide)
      · by_cases h2 : starExpr a = EPSILON
        · rw [h2]
          decide
        · exact starExpr_of_star _ h h1 h2
  · exact starExpr_of_star _ (getLast?_append_star a) (append_star_ne_empty a)
      (append_star_ne_epsilon a)

/-- C17 (the code departs from the claim): on the demonstration automaton with `ε` listed in
the alphabet field, the transition set that part 1 of `runArden` computes as free of ε holds
the transition `q0 -> q1` on `ε`. -/
theorem C17_epsilon_listed_gives_epsilon_transition :
    WellFormed demoEps ∧ EPSILON ∈ parseAlphabet demoEps ∧
    ∃ pre, preprocess demoEps = .ok pre ∧
      Transition.mk "q0".toList "q1".toList EPSILON ∈ pre.noEps := by
  refine ⟨by decide, by decide, ?_⟩
  obtain ⟨pre, hpre, hno⟩ := preprocess_noEps_of_eval demoEps
    [⟨"q0".toList, "q1".toList, "a".toList⟩, ⟨"q0".toList, "q1".toList, "b".toList⟩,
      ⟨"q0".toList, "q1".toList, EPSILON⟩, ⟨"q1".toList, "q1".toList, "b".toList⟩] (by decide)
  exact ⟨pre, hpre, by rw [hno]; decide⟩

/-- On a well-formed graph without inherited names whose declared alphabet does not list the ε
marker, part 1 of `runArden` returns and every transition of the computed ε-free transition
set carries a symbol of the declared alphabet, hence a symbol different from `ε`. -/
theorem noEps_symbols_in_alphabet (a : Automaton) (hwf : WellFormed a) (hplain : PlainNames a)
    (heps : EPSILON ∉ parseAlphabet a) :
    ∃ pre, preprocess a = .ok pre ∧
      ∀ t ∈ pre.noEps, t.symbol ∈ parseAlphabet a ∧ t.symbol ≠ EPSILON := by
  obtain ⟨pre, hpre, hspec⟩ := preprocess_spec a hwf hplain
  refine ⟨pre, hpre, fun t ht => ?_⟩
  have hsym := ((hspec.noEps t).1 ht).2.1
  exact ⟨hsym, fun h => heps (h ▸ hsym)⟩

/-- C18 (as stated, refuted): on Scenario 1 the computed ε-free transition set is not
`{q0 -> q1 on a, q1 -> q1 on b}`. -/
theorem C18_demo_noEps_is_not_the_two_transitions :
    ¬ ∃ pre, preprocess demo = .ok pre ∧
      ∀ t, t ∈ pre.noEps ↔
        t ∈ [Transition.mk "q0".toList "q1".toList "a".toList,
          Transition.mk "q1".toList "q1".toList "b".toList] := by
  rintro ⟨pre, hpre, h⟩
  obtain ⟨pre', hpre', hno⟩ := preprocess_noEps_of_eval demo
    [⟨"q0".toList, "q1".toList, "a".toList⟩, ⟨"q0".toList, "q1".toList, "b".toList⟩,
      ⟨"q1".toList, "q1".toList, "b".toList⟩] (by decide)
  rw [hpre] at hpre'
  cases hpre'
  have hmem : Transition.mk "q0".toList "q1".toList "b".toList ∈ pre.noEps := by
    rw [hno]; decide
  exact absurd ((h _).1 hmem) (by decide)

/-- C18 (amended): on Scenario 1 the computed ε-free transitions are `q0 -> q1` on `a`,
`q0 -> q1` on `b` and `q1 -> q1` on `b`. -/
theorem C18_demo_noEps :
    ∃ pre, preprocess demo = .ok pre ∧
      pre.noEps = [Transition.mk "q0".toList "q1".toList "a".toList,
        Transition.mk "q0".toList "q1".toList "b".toList,
        Transition.mk "q1".toList "q1".toList "b".toList] :=
  preprocess_noEps_of_eval demo _ (by decide)

/-- C19 (the code departs from the claim): on `lateInitial`, a valid automaton whose initial
state `q1` is the second state, the equation of `q1` still has the term `a·q0` when the
elimination loop has finished; `runArden` returns its constant `∅`, although the automaton
accepts the word `a` from `q1`. -/
theorem C19_lateInitial_keeps_a_term :
    WellFormed lateInitial ∧ getInitialState lateInitial = some "q1".toList ∧
    (solvedEquations lateInitial).toOption.map (fun eqs => dictGet "q1".toList eqs) =
      some (some (Equation.mk EMPTY [("q0".toList, "a".toList)])) ∧
    runArden lateInitial = .ok EMPTY ∧
    EAccepts (buildUnitTransitions lateInitial) (getFinalStates lateInitial) "q1".toList
      ["a".toList] :=
  ⟨by decide, by decide, by decide, by decide,
    @EAccepts.sym _ _ "q1".toList "q0".toList "a".toList [] (by decide) (by decide)
      (EAccepts.final (by decide))⟩

/-- C20 (the code departs from the claim): `(a|b)c|d(e|f)` is balanced, has a `|` at depth 0
and is not wholly enclosed in one pair of parentheses, yet `needsParen` is false for it, so
that `starExpr` leaves it unwrapped; and `(a|b)c` has no `|` at depth 0, yet `needsParen` is
true for it. -/
theorem C20_needsParen_is_not_the_top_level_test :
    (parenBalanced "(a|b)c|d(e|f)".toList = true ∧
      requiresParen "(a|b)c|d(e|f)".toList = true ∧
      needsParen "(a|b)c|d(e|f)".toList = false ∧
      starExpr "(a|b)c|d(e|f)".toList = "(a|b)c|d(e|f)*".toList) ∧
    (parenBalanced "(a|b)c".toList = true ∧
      requiresParen "(a|b)c".toList = false ∧
      needsParen "(a|b)c".toList = true) :=
  ⟨by decide, by decide⟩

/-- C13 (as stated, refuted): for the expression string `a|a`, `unionExpr(a|a, ∅)` is `a`, not
`a|a`, and so is `unionExpr(a|a, a|a)`. -/
theorem C13_unionExpr_not_identity_on_every_string :
    ¬ ∀ a : Str, unionExpr [a, EMPTY] = a ∧ unionExpr [a, a] = a := by
  intro h
  exact absurd (h "a|a".toList).1 (by decide)

/-- C13 (amended): for `a = ∅` and for every expression string `a` whose pieces between `|`
characters are non-empty, trimmed, different from `∅` and pairwise distinct,
`unionExpr(a, ∅)` is `a` and `unionExpr(a, a)` is `a`. -/
theorem C13_unionExpr_identity_idempotent (a : Str)
    (h : a = EMPTY ∨
      ((∀ p ∈ split '|' a, p ≠ [] ∧ trim p = p ∧ p ≠ EMPTY) ∧ (split '|' a).Nodup)) :
    unionExpr [a, EMPTY] = a ∧ unionExpr [a, a] = a := by
  rcases h with h | ⟨hp, hd⟩
  · subst h
    exact ⟨by decide, by decide⟩
  · have hmap : (split '|' a).map trim = split '|' a :=
      map_eq_self trim _ (fun p hp' => (hp p hp').2.1)
    have hE : (split '|' EMPTY).map trim = [EMPTY] := by decide
    have hf1 : (split '|' a).filter (fun x => decide (x ≠ [])) = split '|' a :=
      List.filter_eq_self.2 (fun p hp' => by simpa using (hp p hp').1)
    have hf2 : (split '|' a).filter (fun x => decide (x ≠ EMPTY)) = split '|' a :=
      List.filter_eq_self.2 (fun p hp' => by simpa using (hp p hp').2.2)
    constructor
    · rw [unionExpr_of_pieces [a, EMPTY] (split '|' a) (split_ne_nil _ _), join_split]
      simp only [List.map_cons, List.map_nil, List.flatten_cons, List.flatten_nil,
        List.append_nil, hmap, hE, List.filter_append, hf1, hf2]
      have h1 : [EMPTY].filter (fun x => decide (x ≠ [])) = [EMPTY] := by decide
      have h2 : [EMPTY].filter (fun x => decide (x ≠ EMPTY)) = [] := by decide
      rw [h1, h2, List.append_nil]
      exact uniq_of_nodup _ hd
    · rw [unionExpr_of_pieces [a, a] (split '|' a) (split_ne_nil _ _), join_split]
      simp only [List.map_cons, List.map_nil, List.flatten_cons, List.flatten_nil,
        List.append_nil, hmap, List.filter_append, hf1, hf2]
      exact uniq_append_of_subset _ _ hd (fun x hx => hx)

/-- Witness of C13 (amended) on the operand `(a|b)c`, whose pieces are `(a` and `b)c`. -/
theorem C13_unionExpr_identity_idempotent_witness :
    unionExpr ["(a|b)c".toList, EMPTY] = "(a|b)c".toList ∧
    unionExpr ["(a|b)c".toList, "(a|b)c".toList] = "(a|b)c".toList :=
  C13_unionExpr_identity_idempotent "(a|b)c".toList (Or.inr ⟨by decide, by decide⟩)

/-- C16: for every label string, `normalizeLabelList` returns the comma-separated pieces
trimmed, without the empty ones, with `e` replaced by `ε`, each kept at its first occurrence
(`List.dedup` keeps last occurrences, hence the two reversals); the result has no duplicates,
`e, ε` yields the single symbol `ε`, and normalizing the comma-join of the result returns the
result. -/
theorem C16_normalizeLabelList_canonical (raw : Str) :
    normalizeLabelList raw =
      ((((split ',' raw).map trim).filter (fun s => s ≠ [])).map
        (fun s => if s = ['e'] then EPSILON else s)).reverse.dedup.reverse ∧
    (normalizeLabelList raw).Nodup ∧
    normalizeLabelList "e, ε".toList = [EPSILON] ∧
    normalizeLabelList (join [','] (normalizeLabelList raw)) = normalizeLabelList raw := by
  refine ⟨uniq_eq_dedup _, uniq_nodup _, by decide, ?_⟩
  have hmem := normalizeLabelList_mem raw
  have hnd : (normalizeLabelList raw).Nodup := uniq_nodup _
  generalize normalizeLabelList raw = l at hmem hnd
  by_cases hl : l = []
  · subst hl
    decide
  · rw [normalizeLabelList_eq, split_join ',' l hl (fun p hp => (hmem p hp).2.2.1),
      map_eq_self trim l (fun p hp => (hmem p hp).2.1),
      List.filter_eq_self.2 (fun p hp => by simpa using (hmem p hp).1),
      map_eq_self epsOfE l (fun p hp => (hmem p hp).2.2.2)]
    exact uniq_of_nodup l hnd

end Grafos
